import Mathlib

/-!
Verification development for the utility-splitter repository.

Shallow embedding of the bill-splitting ledger: the data model from
src/types/index.ts, the balance bookkeeping and store operations from the
localStorage-backed store in src/client/services/DefaultService.ts, the split
recalculation effect from src/components/BillEntry.tsx, the greedy settlement
planner from src/components/Dashboard.tsx, and the password-based crypto layer
from the CryptoService in src/components/LoginScreen.tsx.

Currency amounts are modelled as exact rationals; the platform WebCrypto
primitives (PBKDF2, AES-GCM, getRandomValues, btoa and atob) are not part of
the repository and are modelled as concrete executable functions satisfying
the contracts the spec states for them (authenticated encryption, an
injective key-derivation and an invertible transport encoding).
-/

/-! ## Data model (src/types/index.ts) -/

inductive SplitMethod where
  | equal
  | percentage
  | shares
  | exact
deriving DecidableEq, Repr

inductive BillKind where
  | bill
  | settlement
deriving DecidableEq, Repr

structure Split where
  housemateId : String
  amount : ℚ
  share : Option ℚ
deriving DecidableEq, Repr

structure Housemate where
  id : String
  name : String
deriving DecidableEq, Repr

structure Bill where
  id : String
  title : String
  amount : ℚ
  payerId : String
  date : String
  splitMethod : SplitMethod
  splits : List Split
  createdAt : String
  billingMonth : String
  categoryId : String
  type : Option BillKind
deriving DecidableEq, Repr

/-- Sum of the computed split amounts of a list of splits. -/
def splitsSum (splits : List Split) : ℚ :=
  (splits.map Split.amount).sum

/-! ## Balances

`meta.balances` is a JS object mapping housemate id to a signed rational.
We model it as an association list; `addTo` models the idiom
`if (bal[id] === undefined) bal[id] = 0; bal[id] += amt` (a missing key is
treated as zero and the pair is appended).  `deleteBill` and the
old-bill reversal in `updateBill` use the unguarded `bal[id] -= amt` form in
the source; both forms agree whenever the key is present, which holds at
every state in which those operations are exercised here (the payer and every
split housemate of a stored bill were inserted when the bill was added). -/

abbrev Balances := List (String × ℚ)

/-- Add `amt` to the balance of `id`, inserting the key at 0 if absent. -/
def addTo : Balances → String → ℚ → Balances
  | [], id, amt => [(id, amt)]
  | (k, v) :: rest, id, amt =>
    if k = id then (k, v + amt) :: rest else (k, v) :: addTo rest id amt

/-- Balance of `id`, 0 when the key is absent. -/
def getBal (bals : Balances) (id : String) : ℚ :=
  match bals.find? (fun p => p.1 = id) with
  | some p => p.2
  | none => 0

/-- Total of all balances. -/
def balancesSum (bals : Balances) : ℚ :=
  (bals.map Prod.snd).sum

/-- Balance update performed by `addBill`: the payer gains the full bill
amount, every split housemate loses the split amount. -/
def applyBillBalances (bals : Balances) (bill : Bill) : Balances :=
  bill.splits.foldl (fun bs s => addTo bs s.housemateId (-s.amount))
    (addTo bals bill.payerId bill.amount)

/-- Balance update performed by `deleteBill` (and by the old-bill reversal in
`updateBill`): the payer loses the bill amount, every split housemate gains
the split amount back. -/
def removeBillBalances (bals : Balances) (bill : Bill) : Balances :=
  bill.splits.foldl (fun bs s => addTo bs s.housemateId s.amount)
    (addTo bals bill.payerId (-bill.amount))

/-- Folding a bill list into balances starting from all-zero, exactly as a
sequence of `addBill` balance updates would. -/
def recomputeBalances (bills : List Bill) : Balances :=
  bills.foldl applyBillBalances []

/-- Net effect of one bill on the balance of `id`. -/
def billDelta (bill : Bill) (id : String) : ℚ :=
  (if bill.payerId = id then bill.amount else 0)
    - ((bill.splits.filter (fun s => s.housemateId = id)).map Split.amount).sum

/-- Net effect of a bill list on the balance of `id`. -/
def billsDelta (bills : List Bill) (id : String) : ℚ :=
  (bills.map (fun b => billDelta b id)).sum

theorem balancesSum_addTo (bals : Balances) (id : String) (amt : ℚ) :
    balancesSum (addTo bals id amt) = balancesSum bals + amt := by
  induction bals with
  | nil => simp [addTo, balancesSum]
  | cons p rest ih =>
    obtain ⟨k, v⟩ := p
    by_cases h : k = id
    · simp [addTo, h, balancesSum]
      ring
    · simp [addTo, h, balancesSum] at ih ⊢
      rw [ih]
      ring

theorem getBal_addTo_same (bals : Balances) (id : String) (amt : ℚ) :
    getBal (addTo bals id amt) id = getBal bals id + amt := by
  induction bals with
  | nil => simp [addTo, getBal]
  | cons p rest ih =>
    obtain ⟨k, v⟩ := p
    by_cases h : k = id
    · simp [addTo, h, getBal]
    · simp [addTo, h, getBal, List.find?] at ih ⊢
      exact ih

theorem getBal_addTo_other (bals : Balances) (id id' : String) (amt : ℚ)
    (h : id ≠ id') : getBal (addTo bals id amt) id' = getBal bals id' := by
  induction bals with
  | nil => simp [addTo, getBal, h]
  | cons p rest ih =>
    obtain ⟨k, v⟩ := p
    by_cases hk : k = id
    · subst hk
      simp [addTo, getBal, List.find?, h]
    · simp [addTo, hk, getBal, List.find?] at ih ⊢
      by_cases hk' : k = id'
      · simp [hk']
      · simp [hk', ih]

theorem getBal_addTo_ite (bals : Balances) (id id' : String) (amt : ℚ) :
    getBal (addTo bals id amt) id'
      = getBal bals id' + (if id = id' then amt else 0) := by
  by_cases h : id = id'
  · subst h
    simp [getBal_addTo_same]
  · simp [h, getBal_addTo_other bals id id' amt h]

theorem sum_map_neg (l : List Split) (f : Split → ℚ) :
    (l.map (fun s => -(f s))).sum = -((l.map f).sum) := by
  induction l with
  | nil => simp
  | cons x xs ih => simp [ih]; ring

theorem getBal_foldl_addTo (splits : List Split) (bals : Balances)
    (id : String) (f : Split → ℚ) :
    getBal (splits.foldl (fun bs s => addTo bs s.housemateId (f s)) bals) id
      = getBal bals id
          + ((splits.filter (fun s => s.housemateId = id)).map f).sum := by
  induction splits generalizing bals with
  | nil => simp
  | cons s rest ih =>
    by_cases h : s.housemateId = id
    · simp [List.foldl, ih, h, getBal_addTo_same]
      ring
    · simp [List.foldl, ih, h, getBal_addTo_other bals s.housemateId id (f s) h]

theorem balancesSum_foldl_addTo (splits : List Split) (bals : Balances)
    (f : Split → ℚ) :
    balancesSum (splits.foldl (fun bs s => addTo bs s.housemateId (f s)) bals)
      = balancesSum bals + (splits.map f).sum := by
  induction splits generalizing bals with
  | nil => simp
  | cons s rest ih =>
    simp [List.foldl, ih, balancesSum_addTo]
    ring

theorem getBal_applyBillBalances (bals : Balances) (bill : Bill) (id : String) :
    getBal (applyBillBalances bals bill) id = getBal bals id + billDelta bill id := by
  unfold applyBillBalances billDelta
  rw [getBal_foldl_addTo, getBal_addTo_ite,
    sum_map_neg (bill.splits.filter (fun s => s.housemateId = id)) Split.amount]
  ring

theorem getBal_removeBillBalances (bals : Balances) (bill : Bill) (id : String) :
    getBal (removeBillBalances bals bill) id = getBal bals id - billDelta bill id := by
  unfold removeBillBalances billDelta
  rw [getBal_foldl_addTo, getBal_addTo_ite]
  by_cases h : bill.payerId = id
  · simp [h]
    ring
  · simp [h]

theorem balancesSum_applyBillBalances (bals : Balances) (bill : Bill) :
    balancesSum (applyBillBalances bals bill)
      = balancesSum bals + bill.amount - splitsSum bill.splits := by
  unfold applyBillBalances splitsSum
  rw [balancesSum_foldl_addTo, balancesSum_addTo,
    sum_map_neg bill.splits Split.amount]
  ring

theorem balancesSum_removeBillBalances (bals : Balances) (bill : Bill) :
    balancesSum (removeBillBalances bals bill)
      = balancesSum bals - bill.amount + splitsSum bill.splits := by
  unfold removeBillBalances splitsSum
  rw [balancesSum_foldl_addTo, balancesSum_addTo]
  ring

theorem getBal_foldl_applyBill (bills : List Bill) (bals : Balances) (id : String) :
    getBal (bills.foldl applyBillBalances bals) id
      = getBal bals id + billsDelta bills id := by
  induction bills generalizing bals with
  | nil => simp [billsDelta]
  | cons b rest ih =>
    simp only [List.foldl, ih, getBal_applyBillBalances, billsDelta, List.map, List.sum_cons]
    ring

theorem getBal_nil (id : String) : getBal [] id = 0 := by
  simp [getBal]

theorem getBal_recomputeBalances (bills : List Bill) (id : String) :
    getBal (recomputeBalances bills) id = billsDelta bills id := by
  unfold recomputeBalances
  rw [getBal_foldl_applyBill, getBal_nil]
  ring

theorem balancesSum_foldl_applyBill (bills : List Bill) (bals : Balances) :
    balancesSum (bills.foldl applyBillBalances bals)
      = balancesSum bals
          + (bills.map (fun b => b.amount - splitsSum b.splits)).sum := by
  induction bills generalizing bals with
  | nil => simp
  | cons b rest ih =>
    simp only [List.foldl, ih, balancesSum_applyBillBalances, List.map, List.sum_cons]
    ring

/-- A concrete conserving bill used to witness the zero-sum theorem. -/
def exampleBillA : Bill :=
  { id := "b1", title := "Electricity", amount := 100, payerId := "alice",
    date := "2025-03-01", splitMethod := SplitMethod.equal,
    splits := [⟨"alice", 50, some 1⟩, ⟨"bob", 50, some 1⟩],
    createdAt := "2025-03-01", billingMonth := "2025-03", categoryId := "1",
    type := none }

/-- C3: for any set of non-settlement bills whose split amounts each sum to
the bill amount, folding the bills into balances from all-zero (as `addBill`
does) yields a balance total of exactly 0, and the `deleteBill` balance
reversal preserves that zero total. -/
theorem addBill_fold_zero_sum (bills : List Bill)
    (htype : ∀ b ∈ bills, b.type ≠ some BillKind.settlement)
    (hcons : ∀ b ∈ bills, splitsSum b.splits = b.amount) :
    balancesSum (recomputeBalances bills) = 0 ∧
      ∀ b ∈ bills,
        balancesSum (removeBillBalances (recomputeBalances bills) b) = 0 := by
  have hsum : balancesSum (recomputeBalances bills) = 0 := by
    unfold recomputeBalances
    rw [balancesSum_foldl_applyBill]
    have hz : (bills.map (fun b => b.amount - splitsSum b.splits)).sum = 0 := by
      induction bills with
      | nil => simp
      | cons b rest ih =>
        simp only [List.map, List.sum_cons]
        rw [hcons b (by simp), ih]
        · ring
        · intro b' hb'
          exact htype b' (by simp [hb'])
        · intro b' hb'
          exact hcons b' (by simp [hb'])
    simp [balancesSum] at hz ⊢
    rw [hz]
  refine ⟨hsum, ?_⟩
  intro b hb
  rw [balancesSum_removeBillBalances, hsum, hcons b hb]
  ring

/-- Witness for C3 at a concrete one-bill ledger. -/
theorem addBill_fold_zero_sum_witness :
    balancesSum (recomputeBalances [exampleBillA]) = 0 ∧
      balancesSum (removeBillBalances (recomputeBalances [exampleBillA]) exampleBillA) = 0 := by
  have h1 : ∀ b ∈ [exampleBillA], b.type ≠ some BillKind.settlement := by decide
  have h2 : ∀ b ∈ [exampleBillA], splitsSum b.splits = b.amount := by
    intro b hb
    simp only [List.mem_singleton] at hb
    subst hb
    norm_num [splitsSum, exampleBillA]
  exact ⟨(addBill_fold_zero_sum [exampleBillA] h1 h2).1,
    (addBill_fold_zero_sum [exampleBillA] h1 h2).2 exampleBillA (by simp)⟩

/-! ## Split calculator (src/components/BillEntry.tsx, recalculation effect)

The effect reads `totalAmount = parseFloat(amount) || 0` and returns early when
it is 0, leaving the current splits untouched; otherwise it recomputes the
split amounts according to the selected method.  The `exact` method has no
branch in the effect (it is only used by settlements built directly in
Dashboard.tsx), so the splits pass through unchanged. -/

def recalcSplits (totalAmount : ℚ) (method : SplitMethod)
    (housemates : List Housemate) (splits : List Split) : List Split :=
  if totalAmount = 0 then splits
  else
    match method with
    | SplitMethod.equal =>
        housemates.map (fun h => ⟨h.id, totalAmount / housemates.length, some 1⟩)
    | SplitMethod.percentage =>
        splits.map (fun s => { s with amount := totalAmount * s.share.getD 0 / 100 })
    | SplitMethod.shares =>
        let totalShares := splits.foldl (fun acc s => acc + s.share.getD 0) 0
        if totalShares > 0 then
          splits.map (fun s => { s with amount := totalAmount * s.share.getD 0 / totalShares })
        else splits
    | SplitMethod.exact => splits

/-- The settlement bill built by `handleConfirmSettle` in Dashboard.tsx: an
`exact`-method one-split bill paying `amount` from `senderId` to
`recipientId`. -/
def settlementBill (billId senderId recipientId : String) (amount : ℚ)
    (dateStr monthStr : String) : Bill :=
  { id := billId, title := "Settlement", amount := amount, payerId := senderId,
    date := dateStr, splitMethod := SplitMethod.exact,
    splits := [⟨recipientId, amount, none⟩],
    createdAt := dateStr, billingMonth := monthStr, categoryId := "5",
    type := some BillKind.settlement }

theorem sum_map_const_housemates (l : List Housemate) (c : ℚ) :
    ((l.map (fun _ => c)).sum) = l.length * c := by
  induction l with
  | nil => simp
  | cons x xs ih =>
    simp [ih]
    ring

/-- C6: under the `equal` method every participant is assigned
`totalAmount / participantCount` and the split amounts sum exactly to the
total for any participant count at least 1; under the `exact` method the
caller-supplied amounts pass through unchanged, and the one-split settlement
bill built by `handleConfirmSettle` conserves its amount exactly. -/
theorem equal_exact_split_conservation (total : ℚ) (hms : List Housemate)
    (prev : List Split) (htotal : total ≠ 0) (hne : hms ≠ []) :
    splitsSum (recalcSplits total SplitMethod.equal hms prev) = total
      ∧ (∀ s ∈ recalcSplits total SplitMethod.equal hms prev,
          s.amount = total / hms.length)
      ∧ recalcSplits total SplitMethod.exact hms prev = prev
      ∧ ∀ billId senderId recipientId amount dateStr monthStr,
          splitsSum (settlementBill billId senderId recipientId amount dateStr monthStr).splits
            = (settlementBill billId senderId recipientId amount dateStr monthStr).amount := by
  have hlen : (hms.length : ℚ) ≠ 0 := by
    simp [List.length_eq_zero]
    exact hne
  refine ⟨?_, ?_, ?_, ?_⟩
  · unfold recalcSplits splitsSum
    rw [if_neg htotal]
    simp only [List.map_map]
    have : (Split.amount ∘ fun h : Housemate =>
        (⟨h.id, total / hms.length, some 1⟩ : Split)) = fun _ => total / hms.length := rfl
    rw [this, sum_map_const_housemates]
    field_simp
  · intro s hs
    unfold recalcSplits at hs
    rw [if_neg htotal] at hs
    simp only [List.mem_map] at hs
    obtain ⟨h, _, rfl⟩ := hs
    rfl
  · unfold recalcSplits
    rw [if_neg htotal]
  · intro billId senderId recipientId amount dateStr monthStr
    simp [settlementBill, splitsSum]

/-- Witness for C6 at a concrete one-participant bill and settlement. -/
theorem equal_exact_split_conservation_witness :
    splitsSum (recalcSplits 100 SplitMethod.equal [⟨"a", "A"⟩] []) = 100
      ∧ recalcSplits 100 SplitMethod.exact [⟨"a", "A"⟩] [] = []
      ∧ splitsSum (settlementBill "s1" "a" "b" 30 "d" "m").splits
          = (settlementBill "s1" "a" "b" 30 "d" "m").amount := by
  have h := equal_exact_split_conservation 100 [⟨"a", "A"⟩] [] (by norm_num)
    (by simp)
  exact ⟨h.1, h.2.2.1, h.2.2.2 "s1" "a" "b" 30 "d" "m"⟩

/-- C7 counterexample: with the `shares` method and all raw shares 0, the
recalculation effect leaves the previous split amounts in place (here 55),
it does not produce all-zero amounts. -/
theorem shares_zero_total_counterexample :
    recalcSplits 100 SplitMethod.shares [⟨"a", "A"⟩] [⟨"a", 55, some 0⟩]
        = [⟨"a", 55, some 0⟩]
      ∧ ¬ ∀ s ∈ recalcSplits 100 SplitMethod.shares [⟨"a", "A"⟩] [⟨"a", 55, some 0⟩],
            s.amount = 0 := by
  have heval : recalcSplits 100 SplitMethod.shares [⟨"a", "A"⟩] [⟨"a", 55, some 0⟩]
      = [⟨"a", 55, some 0⟩] := by
    unfold recalcSplits
    norm_num
  refine ⟨heval, ?_⟩
  intro hall
  have h55 := hall ⟨"a", 55, some 0⟩ (by rw [heval]; simp)
  norm_num at h55

/-- C7 amended: when the raw-share total is not positive (in particular when
it is 0), the guarded `shares` branch skips the update entirely and the
splits — amounts included — are returned unchanged; no division by the share
total is performed. -/
theorem shares_zero_total_leaves_splits (total : ℚ) (hms : List Housemate)
    (splits : List Split)
    (h : ¬ 0 < splits.foldl (fun acc s => acc + s.share.getD 0) 0) :
    recalcSplits total SplitMethod.shares hms splits = splits := by
  unfold recalcSplits
  by_cases ht : total = 0
  · rw [if_pos ht]
  · rw [if_neg ht]
    simp only
    rw [if_neg h]

/-- Witness for the amended C7 at a concrete zero-share split list. -/
theorem shares_zero_total_leaves_splits_witness :
    recalcSplits 60 SplitMethod.shares [] [⟨"b", 7, some 0⟩] = [⟨"b", 7, some 0⟩] :=
  shares_zero_total_leaves_splits 60 [] [⟨"b", 7, some 0⟩] (by norm_num)

/-! ## Crypto layer (CryptoService in src/components/LoginScreen.tsx)

The platform pieces are modelled executably:

* `arrayBufferToBase64` and `base64ToArrayBuffer` (btoa and atob loops in the
  source) become a concrete base64 codec on byte lists;
* `TextEncoder` and `TextDecoder` become a fixed-width 3-byte big-endian
  encoding of each character code point (injective, with an explicit
  decoder — the property of UTF-8 the repository relies on);
* PBKDF2 (`deriveKey`) becomes the pair of password and salt, an injective
  deterministic key-derivation;
* AES-GCM becomes an ideal deterministic authenticated cipher: the
  ciphertext embeds the key material, the nonce, and the plaintext twice,
  and decryption checks all of it, so only a genuine ciphertext for the same
  key and nonce decrypts.  This realises exactly the contract the spec
  assigns to the authenticated cipher (round-trip plus tamper rejection). -/

def b64alphabet : List Char :=
  "ABCDEFGHIJKLMNOPQRSTUVWXYZabcdefghijklmnopqrstuvwxyz0123456789+/".toList

def sextetToChar (n : Nat) : Char := b64alphabet.getD n 'A'

def charToSextet (c : Char) : Option Nat :=
  if c ∈ b64alphabet then some (b64alphabet.indexOf c) else none

/-- Base64-encode a byte list (chars, before packing into a string). -/
def encodeChunks : List Nat → List Char
  | [] => []
  | [a] => [sextetToChar (a / 4), sextetToChar (a % 4 * 16), '=', '=']
  | [a, b] => [sextetToChar (a / 4), sextetToChar (a % 4 * 16 + b / 16),
      sextetToChar (b % 16 * 4), '=']
  | a :: b :: c :: rest =>
      sextetToChar (a / 4) :: sextetToChar (a % 4 * 16 + b / 16)
        :: sextetToChar (b % 16 * 4 + c / 64) :: sextetToChar (c % 64)
        :: encodeChunks rest

/-- Base64-decode a char list back into bytes. -/
def decodeChunks : List Char → Option (List Nat)
  | [] => some []
  | c1 :: c2 :: c3 :: c4 :: rest =>
    (charToSextet c1).bind fun s1 =>
    (charToSextet c2).bind fun s2 =>
    if c3 = '=' then
      if c4 = '=' ∧ rest = [] then some [s1 * 4 + s2 / 16] else none
    else
      (charToSextet c3).bind fun s3 =>
      if c4 = '=' then
        if rest = [] then some [s1 * 4 + s2 / 16, s2 % 16 * 16 + s3 / 4]
        else none
      else
        (charToSextet c4).bind fun s4 =>
        (decodeChunks rest).bind fun tl =>
        some ((s1 * 4 + s2 / 16) :: (s2 % 16 * 16 + s3 / 4)
          :: (s3 % 4 * 64 + s4) :: tl)
  | _ => none

/-- Model of `arrayBufferToBase64`. -/
def b64encode (bs : List Nat) : String := String.mk (encodeChunks bs)

/-- Model of `base64ToArrayBuffer`; `none` models an atob exception. -/
def b64decode (s : String) : Option (List Nat) := decodeChunks s.data

theorem charToSextet_sextetToChar :
    ∀ n, n < 64 → charToSextet (sextetToChar n) = some n := by
  decide

theorem sextetToChar_ne_pad : ∀ n, n < 64 → sextetToChar n ≠ '=' := by
  decide

theorem decodeChunks_encodeChunks (bs : List Nat) (h : ∀ x ∈ bs, x < 256) :
    decodeChunks (encodeChunks bs) = some bs := by
  induction bs using encodeChunks.induct with
  | case1 => simp [encodeChunks, decodeChunks]
  | case2 a =>
    have ha : a < 256 := h a (by simp)
    simp only [encodeChunks, decodeChunks]
    rw [charToSextet_sextetToChar (a / 4) (by omega),
      charToSextet_sextetToChar (a % 4 * 16) (by omega)]
    simp only [if_pos rfl, and_self, if_true]
    simp
    omega
  | case3 a b =>
    have ha : a < 256 := h a (by simp)
    have hb : b < 256 := h b (by simp)
    simp only [encodeChunks, decodeChunks]
    rw [charToSextet_sextetToChar (a / 4) (by omega),
      charToSextet_sextetToChar (a % 4 * 16 + b / 16) (by omega)]
    simp only [Option.some_bind]
    rw [if_neg (sextetToChar_ne_pad (b % 16 * 4) (by omega))]
    rw [charToSextet_sextetToChar (b % 16 * 4) (by omega)]
    simp only [Option.some_bind, if_pos rfl]
    simp
    constructor
    · omega
    · omega
  | case4 a b c rest ih =>
    have ha : a < 256 := h a (by simp)
    have hb : b < 256 := h b (by simp)
    have hc : c < 256 := h c (by simp)
    have hrest : ∀ x ∈ rest, x < 256 := fun x hx => h x (by simp [hx])
    simp only [encodeChunks, decodeChunks]
    rw [charToSextet_sextetToChar (a / 4) (by omega),
      charToSextet_sextetToChar (a % 4 * 16 + b / 16) (by omega)]
    simp only [Option.some_bind]
    rw [if_neg (sextetToChar_ne_pad (b % 16 * 4 + c / 64) (by omega))]
    rw [charToSextet_sextetToChar (b % 16 * 4 + c / 64) (by omega)]
    simp only [Option.some_bind]
    rw [if_neg (sextetToChar_ne_pad (c % 64) (by omega))]
    rw [charToSextet_sextetToChar (c % 64) (by omega)]
    rw [ih hrest]
    simp only [Option.some_bind]
    congr 1
    simp
    refine ⟨by omega, by omega, by omega⟩

theorem b64decode_b64encode (bs : List Nat) (h : ∀ x ∈ bs, x < 256) :
    b64decode (b64encode bs) = some bs := by
  unfold b64decode b64encode
  exact decodeChunks_encodeChunks bs h

/-- Model of `TextEncoder`: each character code point as 3 big-endian
bytes. -/
def charBytes (c : Char) : List Nat :=
  [c.toNat / 65536, c.toNat / 256 % 256, c.toNat % 256]

def stringToBytes (s : String) : List Nat :=
  (s.data.map charBytes).flatten

/-- Model of `TextDecoder`; `none` on a byte list that is not a whole number
of 3-byte groups. -/
def bytesToChars : List Nat → Option (List Char)
  | [] => some []
  | b1 :: b2 :: b3 :: rest =>
    (bytesToChars rest).bind fun cs =>
      some (Char.ofNat (b1 * 65536 + b2 * 256 + b3) :: cs)
  | _ => none

def bytesToString (bs : List Nat) : Option String :=
  (bytesToChars bs).bind fun cs => some (String.mk cs)

theorem char_toNat_lt (c : Char) : c.toNat < 1114112 := by
  have h := c.valid
  unfold UInt32.isValidChar Nat.isValidChar at h
  unfold Char.toNat
  rcases h with h | ⟨h1, h2⟩ <;> omega

theorem charBytes_lt (c : Char) : ∀ x ∈ charBytes c, x < 256 := by
  have h := char_toNat_lt c
  intro x hx
  simp [charBytes] at hx
  rcases hx with rfl | rfl | rfl <;> omega

theorem stringToBytes_lt (s : String) : ∀ x ∈ stringToBytes s, x < 256 := by
  intro x hx
  simp only [stringToBytes, List.mem_flatten, List.mem_map] at hx
  obtain ⟨l, ⟨c, _, rfl⟩, hxl⟩ := hx
  exact charBytes_lt c x hxl

theorem bytesToChars_stringToBytes (cs : List Char) :
    bytesToChars ((cs.map charBytes).flatten) = some cs := by
  induction cs with
  | nil => simp [bytesToChars]
  | cons c rest ih =>
    have h := char_toNat_lt c
    simp only [List.map_cons, List.flatten_cons, charBytes, List.append_eq,
      List.cons_append, List.nil_append, bytesToChars, ih, Option.some_bind]
    congr 2
    have heq : c.toNat / 65536 * 65536 + c.toNat / 256 % 256 * 256 + c.toNat % 256
        = c.toNat := by omega
    rw [heq, Char.ofNat_toNat]

theorem bytesToString_stringToBytes (s : String) :
    bytesToString (stringToBytes s) = some s := by
  unfold bytesToString stringToBytes
  rw [bytesToChars_stringToBytes]
  simp only [Option.some_bind]

theorem stringToBytes_inj (s t : String) (h : stringToBytes s = stringToBytes t) :
    s = t := by
  have hs := bytesToString_stringToBytes s
  have ht := bytesToString_stringToBytes t
  rw [h, ht] at hs
  simpa using hs.symm

theorem stringToBytes_length (s : String) :
    (stringToBytes s).length = 3 * s.data.length := by
  unfold stringToBytes
  induction s.data with
  | nil => simp
  | cons c rest ih =>
    simp [charBytes, ih]
    omega

/-- The key produced by `CryptoService.deriveKey`: PBKDF2 is a deterministic
injective function of password and salt, modelled as the pair itself. -/
structure DerivedKey where
  password : String
  salt : List Nat
deriving DecidableEq, Repr

/-- Byte image of the password inside the ideal cipher: a self-delimiting
unary length marker followed by the password bytes.  The marker makes the
password segment a prefix code, so headers for different passwords always
disagree at some position. -/
def keyCore (pw : String) : List Nat :=
  List.replicate (stringToBytes pw).length 1 ++ [0] ++ stringToBytes pw

/-- Byte image of a derived key. -/
def keyBytes (k : DerivedKey) : List Nat := keyCore k.password ++ k.salt

/-- Header of an ideal-AEAD ciphertext: key material then nonce. -/
def aeadHeader (k : DerivedKey) (iv : List Nat) : List Nat := keyBytes k ++ iv

/-- Ideal deterministic AES-GCM model: the ciphertext is the header followed
by two copies of the plaintext (the second copy plays the role of the
authentication tag — any single-position change breaks the match). -/
def aeadEncrypt (k : DerivedKey) (iv pt : List Nat) : List Nat :=
  aeadHeader k iv ++ pt ++ pt

/-- Ideal authenticated decryption: checks the header and that the body is a
doubled plaintext; `none` models the AES-GCM authentication failure. -/
def aeadDecrypt (k : DerivedKey) (iv ct : List Nat) : Option (List Nat) :=
  let h := aeadHeader k iv
  if ct.take h.length = h then
    let r := ct.drop h.length
    if r.length % 2 = 0 ∧ r.drop (r.length / 2) = r.take (r.length / 2) then
      some (r.take (r.length / 2))
    else none
  else none

theorem aeadDecrypt_aeadEncrypt (k : DerivedKey) (iv pt : List Nat) :
    aeadDecrypt k iv (aeadEncrypt k iv pt) = some pt := by
  unfold aeadDecrypt aeadEncrypt
  simp only [List.append_assoc]
  rw [List.take_left, List.drop_left]
  have hlen : (pt ++ pt).length = 2 * pt.length := by simp; ring
  have h2 : (pt ++ pt).length / 2 = pt.length := by omega
  rw [if_pos rfl, h2, hlen]
  rw [List.take_left, List.drop_left]
  simp

/-- Only a genuine ciphertext for the same key and nonce decrypts: the
authenticity property of the ideal cipher. -/
theorem aeadDecrypt_genuine (k : DerivedKey) (iv ct pt : List Nat)
    (h : aeadDecrypt k iv ct = some pt) : ct = aeadEncrypt k iv pt := by
  unfold aeadDecrypt at h
  by_cases h1 : ct.take (aeadHeader k iv).length = aeadHeader k iv
  · rw [if_pos h1] at h
    by_cases h2 : (ct.drop (aeadHeader k iv).length).length % 2 = 0 ∧
        (ct.drop (aeadHeader k iv).length).drop
            ((ct.drop (aeadHeader k iv).length).length / 2)
          = (ct.drop (aeadHeader k iv).length).take
              ((ct.drop (aeadHeader k iv).length).length / 2)
    · rw [if_pos h2] at h
      simp only [Option.some.injEq] at h
      obtain ⟨heven, hdup⟩ := h2
      unfold aeadEncrypt
      have hct : ct = ct.take (aeadHeader k iv).length
          ++ ct.drop (aeadHeader k iv).length := by
        rw [List.take_append_drop]
      have hr : ct.drop (aeadHeader k iv).length
          = pt ++ pt := by
        have hsplit : ct.drop (aeadHeader k iv).length
            = (ct.drop (aeadHeader k iv).length).take
                ((ct.drop (aeadHeader k iv).length).length / 2)
              ++ (ct.drop (aeadHeader k iv).length).drop
                ((ct.drop (aeadHeader k iv).length).length / 2) := by
          rw [List.take_append_drop]
        rw [hdup, h] at hsplit
        exact hsplit
      rw [List.append_assoc]
      rw [← hr]
      nth_rewrite 1 [← h1]
      exact hct
    · rw [if_neg h2] at h
      exact absurd h (by simp)
  · rw [if_neg h1] at h
    exact absurd h (by simp)

namespace CryptoService

/-- `private static readonly ALGORITHM = 'AES-GCM'`. -/
def ALGORITHM : String := "AES-GCM"

/-- `private static readonly KDF_ALGORITHM = 'PBKDF2'`. -/
def KDF_ALGORITHM : String := "PBKDF2"

/-- `private static readonly HASH = 'SHA-256'`. -/
def HASH : String := "SHA-256"

/-- `private static readonly SALT_LENGTH = 16`. -/
def SALT_LENGTH : Nat := 16

/-- `private static readonly IV_LENGTH = 12`. -/
def IV_LENGTH : Nat := 12

/-- `private static readonly ITERATIONS = 100000`. -/
def ITERATIONS : Nat := 100000

/-- The key length literal passed to `crypto.subtle.deriveKey`
(`length: 256`). -/
def KEY_LENGTH : Nat := 256

/-- `deriveKey(password, salt, usage)`: PBKDF2 over password and salt,
modelled as the injective pair. -/
def deriveKey (password : String) (salt : List Nat) : DerivedKey :=
  ⟨password, salt⟩

/-- The JSON object produced by `encrypt`: exactly the three fields `data`,
`salt` and `iv`, each holding a base64 string.  (`encrypt` returns it
stringified; `decrypt` accepts the object or the string — we work with the
object form.) -/
structure EncryptedPackage where
  data : String
  salt : String
  iv : String
deriving DecidableEq, Repr

/-- `CryptoService.encrypt(data, password)`.  The two `getRandomValues`
draws are passed explicitly: `saltBytes` is the fresh 16-byte salt and
`ivBytes` the fresh 12-byte IV drawn by the call. -/
def encrypt (data password : String) (saltBytes ivBytes : List Nat) :
    EncryptedPackage :=
  let key := deriveKey password saltBytes
  let encryptedContent := aeadEncrypt key ivBytes (stringToBytes data)
  { data := b64encode encryptedContent
    salt := b64encode saltBytes
    iv := b64encode ivBytes }

/-- The single uniform failure: `throw new Error('Invalid password or
corrupted data')` — every failure cause lands here. -/
def decryptFailureMessage : String := "Invalid password or corrupted data"

/-- `CryptoService.decrypt(encryptedPackage, password)`: base64-decode the
three fields, re-derive the key from the supplied password and the stored
salt, attempt authenticated decryption with the stored IV, and decode the
plaintext bytes; any failure is caught and surfaced as the one uniform
error. -/
def decryptSteps (pkg : EncryptedPackage) (password : String) : Option String :=
  (b64decode pkg.salt).bind fun salt =>
  (b64decode pkg.iv).bind fun iv =>
  (b64decode pkg.data).bind fun encryptedData =>
  (aeadDecrypt (deriveKey password salt) iv encryptedData).bind fun ptBytes =>
  bytesToString ptBytes

def decrypt (pkg : EncryptedPackage) (password : String) :
    Except String String :=
  match decryptSteps pkg password with
  | some s => Except.ok s
  | none => Except.error decryptFailureMessage

end CryptoService

theorem aeadEncrypt_bytes_lt (password : String) (saltBytes ivBytes pt : List Nat)
    (hsalt : ∀ x ∈ saltBytes, x < 256) (hiv : ∀ x ∈ ivBytes, x < 256)
    (hpt : ∀ x ∈ pt, x < 256) :
    ∀ x ∈ aeadEncrypt (CryptoService.deriveKey password saltBytes) ivBytes pt,
      x < 256 := by
  intro x hx
  simp only [aeadEncrypt, aeadHeader, keyBytes, CryptoService.deriveKey, keyCore,
    List.append_assoc, List.mem_append, List.mem_replicate, List.mem_singleton] at hx
  rcases hx with ⟨_, rfl⟩ | rfl | hx | hx | hx | hx | hx
  · omega
  · omega
  · exact stringToBytes_lt password x hx
  · exact hsalt x hx
  · exact hiv x hx
  · exact hpt x hx
  · exact hpt x hx

/-- C1: decrypting the package produced by `CryptoService.encrypt(s, p)`
with the same password `p` returns exactly `s`, for every plaintext, every
password, and every pair of byte lists drawn for the salt and the IV. -/
theorem decrypt_encrypt_roundtrip (s p : String) (saltBytes ivBytes : List Nat)
    (hsalt : ∀ x ∈ saltBytes, x < 256) (hiv : ∀ x ∈ ivBytes, x < 256) :
    CryptoService.decrypt (CryptoService.encrypt s p saltBytes ivBytes) p
      = Except.ok s := by
  unfold CryptoService.encrypt CryptoService.decrypt CryptoService.decryptSteps
  simp only
  rw [b64decode_b64encode saltBytes hsalt, b64decode_b64encode ivBytes hiv,
    b64decode_b64encode _ (aeadEncrypt_bytes_lt p saltBytes ivBytes
      (stringToBytes s) hsalt hiv (stringToBytes_lt s))]
  simp only [Option.some_bind]
  rw [aeadDecrypt_aeadEncrypt]
  simp only [Option.some_bind]
  rw [bytesToString_stringToBytes]

/-- Witness for C1 at a concrete plaintext, password, salt and IV. -/
theorem decrypt_encrypt_roundtrip_witness :
    CryptoService.decrypt
        (CryptoService.encrypt "hello ledger" "pw1"
          [0, 1, 2, 3, 4, 5, 6, 7, 8, 9, 10, 11, 12, 13, 14, 15]
          [20, 21, 22, 23, 24, 25, 26, 27, 28, 29, 30, 31]) "pw1"
      = Except.ok "hello ledger" :=
  decrypt_encrypt_roundtrip "hello ledger" "pw1"
    [0, 1, 2, 3, 4, 5, 6, 7, 8, 9, 10, 11, 12, 13, 14, 15]
    [20, 21, 22, 23, 24, 25, 26, 27, 28, 29, 30, 31]
    (by decide) (by decide)

/-- The unary length marker makes the byte image of a derived key a prefix
code: if a take of one marker-form list equals another marker-form list, the
marker lengths agree and the tails match. -/
theorem take_marker_inj (L1 : Nat) : ∀ (L2 n : Nat) (t1 t2 : List Nat),
    (List.replicate L1 1 ++ 0 :: t1).take n = List.replicate L2 1 ++ 0 :: t2 →
    L1 = L2 ∧ t1.take (n - L1 - 1) = t2 := by
  induction L1 with
  | zero =>
    intro L2 n t1 t2 h
    cases n with
    | zero =>
      simp at h
    | succ m =>
      simp only [List.replicate, List.nil_append, List.take] at h
      cases L2 with
      | zero =>
        simp only [List.replicate, List.nil_append, List.cons.injEq] at h
        refine ⟨rfl, ?_⟩
        simpa using h.2
      | succ M =>
        simp [List.replicate_succ] at h
  | succ L ih =>
    intro L2 n t1 t2 h
    cases n with
    | zero =>
      simp at h
    | succ m =>
      rw [List.replicate_succ, List.cons_append, List.take] at h
      cases L2 with
      | zero =>
        simp [List.replicate] at h
      | succ M =>
        rw [List.replicate_succ, List.cons_append, List.cons.injEq] at h
        obtain ⟨-, h2⟩ := h
        obtain ⟨hL, ht⟩ := ih M m t1 t2 h2
        refine ⟨by omega, ?_⟩
        have : m + 1 - (L + 1) - 1 = m - L - 1 := by omega
        rw [this]
        exact ht

theorem aeadHeader_canonical (pw : String) (salt iv : List Nat) :
    aeadHeader (CryptoService.deriveKey pw salt) iv
      = List.replicate (stringToBytes pw).length 1
          ++ 0 :: (stringToBytes pw ++ (salt ++ iv)) := by
  simp [aeadHeader, keyBytes, keyCore, CryptoService.deriveKey]

theorem aeadEncrypt_canonical (pw : String) (salt iv pt : List Nat) :
    aeadEncrypt (CryptoService.deriveKey pw salt) iv pt
      = List.replicate (stringToBytes pw).length 1
          ++ 0 :: (stringToBytes pw ++ (salt ++ (iv ++ (pt ++ pt)))) := by
  simp [aeadEncrypt, aeadHeader, keyBytes, keyCore, CryptoService.deriveKey]

theorem aeadHeader_length (pw : String) (salt iv : List Nat) :
    (aeadHeader (CryptoService.deriveKey pw salt) iv).length
      = (stringToBytes pw).length + 1
          + ((stringToBytes pw).length + (salt.length + iv.length)) := by
  rw [aeadHeader_canonical]
  simp
  omega

theorem aeadEncrypt_length (k : DerivedKey) (iv pt : List Nat) :
    (aeadEncrypt k iv pt).length
      = (aeadHeader k iv).length + (pt.length + pt.length) := by
  simp [aeadEncrypt]

/-- If the header check of the ideal cipher passes on a genuine ciphertext
for password `p1`, salt `salt1` and IV `iv1` against a header built from
`p2`, `salt2` and `iv2` of the same salt and IV lengths, then password, salt
and IV all coincide. -/
theorem header_check_forces (p1 p2 : String) (salt1 salt2 iv1 iv2 pt : List Nat)
    (hsl : salt2.length = salt1.length) (hil : iv2.length = iv1.length)
    (hck : (aeadEncrypt (CryptoService.deriveKey p1 salt1) iv1 pt).take
          (aeadHeader (CryptoService.deriveKey p2 salt2) iv2).length
        = aeadHeader (CryptoService.deriveKey p2 salt2) iv2) :
    p2 = p1 ∧ salt2 = salt1 ∧ iv2 = iv1 := by
  rw [aeadEncrypt_canonical, aeadHeader_canonical] at hck
  have hlen2 := aeadHeader_length p2 salt2 iv2
  rw [aeadHeader_canonical] at hlen2
  obtain ⟨hL, ht⟩ := take_marker_inj (stringToBytes p1).length
    (stringToBytes p2).length
    (List.replicate (stringToBytes p2).length 1
      ++ 0 :: (stringToBytes p2 ++ (salt2 ++ iv2))).length
    (stringToBytes p1 ++ (salt1 ++ (iv1 ++ (pt ++ pt))))
    (stringToBytes p2 ++ (salt2 ++ iv2)) hck
  have hn : (List.replicate (stringToBytes p2).length 1
        ++ 0 :: (stringToBytes p2 ++ (salt2 ++ iv2))).length
        - (stringToBytes p1).length - 1
      = (stringToBytes p1).length + (salt1.length + iv1.length) := by
    simp
    omega
  rw [hn] at ht
  have htake : (stringToBytes p1 ++ (salt1 ++ (iv1 ++ (pt ++ pt)))).take
      ((stringToBytes p1).length + (salt1.length + iv1.length))
      = stringToBytes p1 ++ (salt1 ++ iv1) := by
    rw [List.take_append]
    congr 1
    rw [List.take_append]
    congr 1
    have : iv1.length = iv1.length + 0 := by omega
    rw [this, List.take_append]
    simp
  rw [htake] at ht
  obtain ⟨hpw, hrest⟩ := List.append_inj ht.symm (by omega)
  obtain ⟨hsalt, hiv⟩ := List.append_inj hrest (by omega)
  exact ⟨stringToBytes_inj p2 p1 hpw, hsalt, hiv⟩

theorem aeadDecrypt_none_of_check_fails (k : DerivedKey) (iv ct : List Nat)
    (h : ct.take (aeadHeader k iv).length ≠ aeadHeader k iv) :
    aeadDecrypt k iv ct = none := by
  unfold aeadDecrypt
  rw [if_neg h]

/-- Flipping any single byte of an ideal ciphertext makes authenticated
decryption with the original key and IV fail. -/
theorem aeadDecrypt_flip_none (k : DerivedKey) (iv pt : List Nat) (i b' : Nat)
    (hi : i < (aeadEncrypt k iv pt).length)
    (hb : (aeadEncrypt k iv pt)[i]? ≠ some b') :
    aeadDecrypt k iv ((aeadEncrypt k iv pt).set i b') = none := by
  set H := aeadHeader k iv with hH
  set ct := aeadEncrypt k iv pt with hct
  have hshape : ct = H ++ (pt ++ pt) := by
    rw [hct]
    unfold aeadEncrypt
    rw [List.append_assoc]
  have hctlen : ct.length = H.length + (pt.length + pt.length) := by
    rw [hct]
    exact aeadEncrypt_length k iv pt
  by_contra hsome
  obtain ⟨pt', hpt'⟩ : ∃ pt', aeadDecrypt k iv (ct.set i b') = some pt' := by
    cases hdec : aeadDecrypt k iv (ct.set i b') with
    | none => exact absurd hdec hsome
    | some v => exact ⟨v, rfl⟩
  have hgen := aeadDecrypt_genuine k iv (ct.set i b') pt' hpt'
  have hlen' : pt'.length = pt.length := by
    have h1 : (ct.set i b').length = ct.length := List.length_set ct i b'
    have h2 : (ct.set i b').length = H.length + (pt'.length + pt'.length) := by
      rw [hgen]
      exact aeadEncrypt_length k iv pt'
    omega
  have hgen' : ct.set i b' = H ++ (pt' ++ pt') := by
    rw [hgen]
    unfold aeadEncrypt
    rw [List.append_assoc]
  have hpos : ∀ q : Nat, (ct.set i b')[q]? = (H ++ (pt' ++ pt'))[q]? := by
    intro q
    rw [hgen']
  by_cases hih : i < H.length
  · -- the flip lands in the header: look at position i on both sides
    have hq := hpos i
    rw [List.getElem?_set_self (by omega : i < ct.length),
      List.getElem?_append_left hih] at hq
    have hq' : ct[i]? = H[i]? := by
      rw [hshape]
      exact List.getElem?_append_left hih
    exact hb (by rw [hq', hq])
  · push_neg at hih
    have hjlt : i - H.length < pt.length + pt.length := by omega
    by_cases hjn : i - H.length < pt.length
    · -- flip in the first plaintext copy: positions i and i + pt.length
      have hn0 : 0 < pt.length := by omega
      have hq1 := hpos i
      rw [List.getElem?_set_self (by omega : i < ct.length),
        List.getElem?_append_right (by omega : H.length ≤ i),
        List.getElem?_append_left (by omega : i - H.length < pt'.length)] at hq1
      have hq2 := hpos (i + pt.length)
      rw [List.getElem?_set_ne (by omega : i ≠ i + pt.length)] at hq2
      rw [hshape,
        List.getElem?_append_right (by omega : H.length ≤ i + pt.length),
        List.getElem?_append_right
          (by omega : pt.length ≤ i + pt.length - H.length)] at hq2
      conv_rhs at hq2 =>
        rw [List.getElem?_append_right (by omega : H.length ≤ i + pt.length),
          List.getElem?_append_right
            (by omega : pt'.length ≤ i + pt.length - H.length)]
      have hctq : ct[i]? = pt[i - H.length]? := by
        rw [hshape,
          List.getElem?_append_right (by omega : H.length ≤ i),
          List.getElem?_append_left (by omega : i - H.length < pt.length)]
      apply hb
      rw [hctq]
      rw [show i - H.length = i + pt.length - H.length - pt.length by omega]
      rw [hq2]
      rw [show i + pt.length - H.length - pt'.length = i - H.length by omega]
      exact hq1.symm
    · -- flip in the second copy: positions i and i - pt.length
      push_neg at hjn
      have hq1 := hpos i
      rw [List.getElem?_set_self (by omega : i < ct.length),
        List.getElem?_append_right (by omega : H.length ≤ i),
        List.getElem?_append_right (by omega : pt'.length ≤ i - H.length)] at hq1
      have hq2 := hpos (i - pt.length)
      rw [List.getElem?_set_ne (by omega : i ≠ i - pt.length)] at hq2
      rw [hshape,
        List.getElem?_append_right (by omega : H.length ≤ i - pt.length),
        List.getElem?_append_left
          (by omega : i - pt.length - H.length < pt.length)] at hq2
      conv_rhs at hq2 =>
        rw [List.getElem?_append_right (by omega : H.length ≤ i - pt.length),
          List.getElem?_append_left
            (by omega : i - pt.length - H.length < pt'.length)]
      have hctq : ct[i]? = pt[i - H.length - pt.length]? := by
        rw [hshape,
          List.getElem?_append_right (by omega : H.length ≤ i),
          List.getElem?_append_right (by omega : pt.length ≤ i - H.length)]
      apply hb
      rw [hctq]
      rw [show i - H.length - pt.length = i - pt.length - H.length by omega]
      rw [hq2]
      rw [show i - pt.length - H.length = i - H.length - pt'.length by omega]
      exact hq1.symm

theorem set_ne_of_getElem_ne (l : List Nat) (i b' : Nat) (hi : i < l.length)
    (hb : l[i]? ≠ some b') : l.set i b' ≠ l := by
  intro he
  apply hb
  have := List.getElem?_set_self (l := l) (a := b') hi
  rw [he] at this
  exact this

theorem set_bytes_lt (l : List Nat) (i b' : Nat) (hl : ∀ x ∈ l, x < 256)
    (hb : b' < 256) : ∀ x ∈ l.set i b', x < 256 := by
  intro x hx
  rcases List.mem_or_eq_of_mem_set hx with h | rfl
  · exact hl x h
  · exact hb

/-- The decrypt pipeline on a well-formed package whose cipher step fails:
the single uniform error comes out. -/
theorem decrypt_error_of_aead_none (p : String) (salt iv ct : List Nat)
    (hsalt : ∀ x ∈ salt, x < 256) (hiv : ∀ x ∈ iv, x < 256)
    (hct : ∀ x ∈ ct, x < 256)
    (hnone : aeadDecrypt (CryptoService.deriveKey p salt) iv ct = none) :
    CryptoService.decrypt ⟨b64encode ct, b64encode salt, b64encode iv⟩ p
      = Except.error CryptoService.decryptFailureMessage := by
  unfold CryptoService.decrypt CryptoService.decryptSteps
  simp only
  rw [b64decode_b64encode salt hsalt, b64decode_b64encode iv hiv,
    b64decode_b64encode ct hct]
  simp only [Option.some_bind]
  rw [hnone]
  rfl

/-- C5: every failure cause of `CryptoService.decrypt` — a wrong password,
any flipped byte in the bytes of the package's `data`, `salt` or `iv`
fields, or a structurally corrupted package — surfaces as the one uniform
error value (the `catch` block throws the single message for every cause, so
the error never distinguishes a wrong password from corrupted data), and a
flipped package never decrypts to incorrect plaintext. -/
theorem decrypt_uniform_failure_and_tamper (s p p' : String)
    (saltBytes ivBytes : List Nat)
    (hsalt : ∀ x ∈ saltBytes, x < 256) (hiv : ∀ x ∈ ivBytes, x < 256) :
    (∀ pkg q e, CryptoService.decrypt pkg q = Except.error e →
        e = CryptoService.decryptFailureMessage)
    ∧ (p' ≠ p →
        CryptoService.decrypt (CryptoService.encrypt s p saltBytes ivBytes) p'
          = Except.error CryptoService.decryptFailureMessage)
    ∧ (∀ i b', b' < 256 →
        i < (aeadEncrypt (CryptoService.deriveKey p saltBytes) ivBytes
          (stringToBytes s)).length →
        (aeadEncrypt (CryptoService.deriveKey p saltBytes) ivBytes
          (stringToBytes s))[i]? ≠ some b' →
        CryptoService.decrypt
          ⟨b64encode ((aeadEncrypt (CryptoService.deriveKey p saltBytes) ivBytes
              (stringToBytes s)).set i b'),
            b64encode saltBytes, b64encode ivBytes⟩ p
          = Except.error CryptoService.decryptFailureMessage)
    ∧ (∀ i b', b' < 256 → i < saltBytes.length → saltBytes[i]? ≠ some b' →
        CryptoService.decrypt
          ⟨b64encode (aeadEncrypt (CryptoService.deriveKey p saltBytes) ivBytes
              (stringToBytes s)),
            b64encode (saltBytes.set i b'), b64encode ivBytes⟩ p
          = Except.error CryptoService.decryptFailureMessage)
    ∧ (∀ i b', b' < 256 → i < ivBytes.length → ivBytes[i]? ≠ some b' →
        CryptoService.decrypt
          ⟨b64encode (aeadEncrypt (CryptoService.deriveKey p saltBytes) ivBytes
              (stringToBytes s)),
            b64encode saltBytes, b64encode (ivBytes.set i b')⟩ p
          = Except.error CryptoService.decryptFailureMessage) := by
  have hctb : ∀ x ∈ aeadEncrypt (CryptoService.deriveKey p saltBytes) ivBytes
      (stringToBytes s), x < 256 :=
    aeadEncrypt_bytes_lt p saltBytes ivBytes (stringToBytes s) hsalt hiv
      (stringToBytes_lt s)
  refine ⟨?_, ?_, ?_, ?_, ?_⟩
  · intro pkg q e h
    unfold CryptoService.decrypt at h
    cases hs : CryptoService.decryptSteps pkg q with
    | some v => rw [hs] at h; exact absurd h (by simp)
    | none =>
      rw [hs] at h
      simp only [Except.error.injEq] at h
      exact h.symm
  · intro hne
    unfold CryptoService.encrypt
    simp only
    apply decrypt_error_of_aead_none p' saltBytes ivBytes _ hsalt hiv hctb
    apply aeadDecrypt_none_of_check_fails
    intro hck
    have hforced := header_check_forces p p' saltBytes saltBytes ivBytes ivBytes
      (stringToBytes s) rfl rfl hck
    exact hne hforced.1
  · intro i b' hb hi hne
    apply decrypt_error_of_aead_none p saltBytes ivBytes _ hsalt hiv
      (set_bytes_lt _ i b' hctb hb)
    exact aeadDecrypt_flip_none (CryptoService.deriveKey p saltBytes) ivBytes
      (stringToBytes s) i b' hi hne
  · intro i b' hb hi hne
    apply decrypt_error_of_aead_none p (saltBytes.set i b') ivBytes _
      (set_bytes_lt _ i b' hsalt hb) hiv hctb
    apply aeadDecrypt_none_of_check_fails
    intro hck
    have hforced := header_check_forces p p saltBytes (saltBytes.set i b')
      ivBytes ivBytes (stringToBytes s) (List.length_set saltBytes i b') rfl hck
    exact set_ne_of_getElem_ne saltBytes i b' hi hne hforced.2.1
  · intro i b' hb hi hne
    apply decrypt_error_of_aead_none p saltBytes (ivBytes.set i b') _
      hsalt (set_bytes_lt _ i b' hiv hb) hctb
    apply aeadDecrypt_none_of_check_fails
    intro hck
    have hforced := header_check_forces p p saltBytes saltBytes
      ivBytes (ivBytes.set i b') (stringToBytes s) rfl
      (List.length_set ivBytes i b') hck
    exact set_ne_of_getElem_ne ivBytes i b' hi hne hforced.2.2

/-- Witness for C5: a concrete wrong-password failure and a concrete
flipped-salt failure, both surfacing the uniform error. -/
theorem decrypt_uniform_failure_and_tamper_witness :
    CryptoService.decrypt
        (CryptoService.encrypt "m" "a"
          [0, 1, 2, 3, 4, 5, 6, 7, 8, 9, 10, 11, 12, 13, 14, 15]
          [20, 21, 22, 23, 24, 25, 26, 27, 28, 29, 30, 31]) "b"
      = Except.error CryptoService.decryptFailureMessage
    ∧ CryptoService.decrypt
        ⟨b64encode (aeadEncrypt
            (CryptoService.deriveKey "a"
              [0, 1, 2, 3, 4, 5, 6, 7, 8, 9, 10, 11, 12, 13, 14, 15])
            [20, 21, 22, 23, 24, 25, 26, 27, 28, 29, 30, 31]
            (stringToBytes "m")),
          b64encode ([0, 1, 2, 3, 4, 5, 6, 7, 8, 9, 10, 11, 12, 13, 14, 15].set 0 99),
          b64encode [20, 21, 22, 23, 24, 25, 26, 27, 28, 29, 30, 31]⟩ "a"
      = Except.error CryptoService.decryptFailureMessage := by
  have h := decrypt_uniform_failure_and_tamper "m" "a" "b"
    [0, 1, 2, 3, 4, 5, 6, 7, 8, 9, 10, 11, 12, 13, 14, 15]
    [20, 21, 22, 23, 24, 25, 26, 27, 28, 29, 30, 31]
    (by decide) (by decide)
  exact ⟨h.2.1 (by decide), h.2.2.2.1 0 99 (by decide) (by decide) (by decide)⟩

/-- C9: `encrypt` draws a fresh 16-byte salt and 12-byte IV per call
(`getRandomValues` of `SALT_LENGTH` and `IV_LENGTH` bytes, modelled as the
explicit draws `saltBytes` and `ivBytes`), derives a 256-bit AES-GCM key via
PBKDF2 with SHA-256 and 100000 iterations over that salt, and returns a
package with exactly the fields `data`, `salt` and `iv`, each independently
base64-encoded — so that decryption succeeds from the package alone. -/
theorem encrypt_package_structure (s p : String) (saltBytes ivBytes : List Nat)
    (hslen : saltBytes.length = CryptoService.SALT_LENGTH)
    (hilen : ivBytes.length = CryptoService.IV_LENGTH)
    (hsalt : ∀ x ∈ saltBytes, x < 256) (hiv : ∀ x ∈ ivBytes, x < 256) :
    CryptoService.encrypt s p saltBytes ivBytes
        = { data := b64encode (aeadEncrypt (CryptoService.deriveKey p saltBytes)
              ivBytes (stringToBytes s)),
            salt := b64encode saltBytes,
            iv := b64encode ivBytes }
      ∧ b64decode (CryptoService.encrypt s p saltBytes ivBytes).salt
          = some saltBytes
      ∧ b64decode (CryptoService.encrypt s p saltBytes ivBytes).iv
          = some ivBytes
      ∧ b64decode (CryptoService.encrypt s p saltBytes ivBytes).data
          = some (aeadEncrypt (CryptoService.deriveKey p saltBytes) ivBytes
              (stringToBytes s))
      ∧ saltBytes.length = 16 ∧ ivBytes.length = 12
      ∧ CryptoService.KDF_ALGORITHM = "PBKDF2"
      ∧ CryptoService.HASH = "SHA-256"
      ∧ CryptoService.ITERATIONS = 100000
      ∧ CryptoService.ALGORITHM = "AES-GCM"
      ∧ CryptoService.KEY_LENGTH = 256
      ∧ CryptoService.decrypt (CryptoService.encrypt s p saltBytes ivBytes) p
          = Except.ok s := by
  have hctb : ∀ x ∈ aeadEncrypt (CryptoService.deriveKey p saltBytes) ivBytes
      (stringToBytes s), x < 256 :=
    aeadEncrypt_bytes_lt p saltBytes ivBytes (stringToBytes s) hsalt hiv
      (stringToBytes_lt s)
  refine ⟨rfl, ?_, ?_, ?_, hslen, hilen, rfl, rfl, rfl, rfl, rfl, ?_⟩
  · exact b64decode_b64encode saltBytes hsalt
  · exact b64decode_b64encode ivBytes hiv
  · exact b64decode_b64encode _ hctb
  · unfold CryptoService.encrypt CryptoService.decrypt CryptoService.decryptSteps
    simp only
    rw [b64decode_b64encode saltBytes hsalt, b64decode_b64encode ivBytes hiv,
      b64decode_b64encode _ hctb]
    simp only [Option.some_bind]
    rw [aeadDecrypt_aeadEncrypt]
    simp only [Option.some_bind]
    rw [bytesToString_stringToBytes]

/-- Witness for C9 at a concrete plaintext, password, salt and IV. -/
theorem encrypt_package_structure_witness :
    b64decode (CryptoService.encrypt "w" "pw"
          [0, 1, 2, 3, 4, 5, 6, 7, 8, 9, 10, 11, 12, 13, 14, 15]
          [20, 21, 22, 23, 24, 25, 26, 27, 28, 29, 30, 31]).salt
        = some [0, 1, 2, 3, 4, 5, 6, 7, 8, 9, 10, 11, 12, 13, 14, 15]
      ∧ CryptoService.ITERATIONS = 100000
      ∧ CryptoService.decrypt (CryptoService.encrypt "w" "pw"
            [0, 1, 2, 3, 4, 5, 6, 7, 8, 9, 10, 11, 12, 13, 14, 15]
            [20, 21, 22, 23, 24, 25, 26, 27, 28, 29, 30, 31]) "pw"
          = Except.ok "w" := by
  have h := encrypt_package_structure "w" "pw"
    [0, 1, 2, 3, 4, 5, 6, 7, 8, 9, 10, 11, 12, 13, 14, 15]
    [20, 21, 22, 23, 24, 25, 26, 27, 28, 29, 30, 31]
    (by decide) (by decide) (by decide) (by decide)
  exact ⟨h.2.1, h.2.2.2.2.2.2.2.2.1, h.2.2.2.2.2.2.2.2.2.2.2⟩

/-! ## Greedy settlement planner (src/components/Dashboard.tsx, `debts` memo)

Partition the global balances into debtors (balance below -0.01, annotated
with the absolute amount) and creditors (balance above 0.01), sort each list
descending by amount, and repeatedly match the largest remaining debtor with
the largest remaining creditor, transferring the minimum of the two
remainders and advancing past any party whose remainder drops below 0.01.
A transaction's `sender`/`recipient` fields model the source's `from`/`to`
(`from` is reserved in Lean). -/

structure Tx where
  sender : String
  recipient : String
  amount : ℚ
deriving DecidableEq, Repr

/-- Stable insertion for descending-by-amount sort (models the in-place
`sort((a, b) => b.amount - a.amount)`). -/
def insertDesc (x : String × ℚ) : List (String × ℚ) → List (String × ℚ)
  | [] => [x]
  | y :: ys => if y.2 < x.2 then x :: y :: ys else y :: insertDesc x ys

def sortDesc (l : List (String × ℚ)) : List (String × ℚ) :=
  l.foldl (fun acc x => insertDesc x acc) []

def debtorsOf (balances : Balances) : List (String × ℚ) :=
  (balances.filter (fun p => p.2 < -(1/100))).map (fun p => (p.1, -p.2))

def creditorsOf (balances : Balances) : List (String × ℚ) :=
  balances.filter (fun p => p.2 > 1/100)

/-- The two-pointer matching loop; returns the emitted transactions together
with the unprocessed remainders of both lists at termination. -/
def settleLoop : List (String × ℚ) → List (String × ℚ) →
    List Tx × (List (String × ℚ) × List (String × ℚ))
  | [], cs => ([], ([], cs))
  | ds, [] => ([], (ds, []))
  | (d, da) :: ds, (c, ca) :: cs =>
    if da ≤ ca then
      -- debtor fully settled (remainder 0 < 0.01), so its pointer advances
      if ca - da < 1/100 then
        (⟨d, c, da⟩ :: (settleLoop ds cs).1, (settleLoop ds cs).2)
      else
        (⟨d, c, da⟩ :: (settleLoop ds ((c, ca - da) :: cs)).1,
          (settleLoop ds ((c, ca - da) :: cs)).2)
    else
      -- creditor fully settled, its pointer advances
      if da - ca < 1/100 then
        (⟨d, c, ca⟩ :: (settleLoop ds cs).1, (settleLoop ds cs).2)
      else
        (⟨d, c, ca⟩ :: (settleLoop ((d, da - ca) :: ds) cs).1,
          (settleLoop ((d, da - ca) :: ds) cs).2)
termination_by ds cs => ds.length + cs.length
decreasing_by all_goals simp <;> omega

def planSettlement (balances : Balances) : List Tx :=
  (settleLoop (sortDesc (debtorsOf balances)) (sortDesc (creditorsOf balances))).1

/-- Recording one settlement transaction via `addBill`
(`handleConfirmSettle`): the sender's balance gains the amount, the
recipient's loses it. -/
def applyTx (bals : Balances) (t : Tx) : Balances :=
  addTo (addTo bals t.sender t.amount) t.recipient (-t.amount)

def applyTxs (bals : Balances) (txs : List Tx) : Balances :=
  txs.foldl applyTx bals

/-- Applying a transaction is exactly the `addBill` balance update of the
settlement bill that `handleConfirmSettle` records for it. -/
theorem applyTx_eq_addBill_settlement (bals : Balances) (t : Tx)
    (billId dateStr monthStr : String) :
    applyTx bals t
      = applyBillBalances bals
          (settlementBill billId t.sender t.recipient t.amount dateStr monthStr) := by
  simp [applyTx, applyBillBalances, settlementBill]

/-- A zero-sum balance vector on which the greedy plan leaves a residual
above 0.01: three creditors at +1, three debtors at -0.991, one debtor at
-0.027. -/
def residualBalances : Balances :=
  [("c1", 1), ("c2", 1), ("c3", 1),
    ("d1", -(991/1000)), ("d2", -(991/1000)), ("d3", -(991/1000)),
    ("d4", -(27/1000))]

/-- C4 counterexample: on the zero-sum `residualBalances`, applying every
transaction of the greedy plan leaves participant `d4` at -0.027, strictly
more than 0.01 away from zero — each of the first three debtors is settled
against one creditor whose remainder (0.009) drops below the 0.01 threshold
and is abandoned, and the creditor list is exhausted before `d4` is
reached. -/
theorem planSettlement_counterexample :
    balancesSum residualBalances = 0
      ∧ getBal (applyTxs residualBalances (planSettlement residualBalances)) "d4"
          = -(27/1000)
      ∧ ¬ (∀ id, |getBal (applyTxs residualBalances
            (planSettlement residualBalances)) id| ≤ 1/100) := by
  have hplan : planSettlement residualBalances
      = [⟨"d1", "c1", 991/1000⟩, ⟨"d2", "c2", 991/1000⟩, ⟨"d3", "c3", 991/1000⟩] := by
    norm_num [planSettlement, residualBalances, debtorsOf, creditorsOf,
      sortDesc, insertDesc, settleLoop]
  have hbal : getBal (applyTxs residualBalances (planSettlement residualBalances)) "d4"
      = -(27/1000) := by
    rw [hplan]
    simp [applyTxs, applyTx, residualBalances, addTo, getBal, List.find?]
  refine ⟨by norm_num [residualBalances, balancesSum], hbal, ?_⟩
  intro hall
  have h4 := hall "d4"
  rw [hbal] at h4
  rw [abs_neg, abs_of_nonneg (by norm_num : (0:ℚ) ≤ 27/1000)] at h4
  norm_num at h4

theorem getBal_applyTx (bals : Balances) (t : Tx) (id : String) :
    getBal (applyTx bals t) id
      = getBal bals id + (if t.sender = id then t.amount else 0)
          - (if t.recipient = id then t.amount else 0) := by
  unfold applyTx
  rw [getBal_addTo_ite, getBal_addTo_ite]
  by_cases h1 : t.sender = id <;> by_cases h2 : t.recipient = id <;>
    (simp [h1, h2]; try ring)

theorem applyTxs_untouched (txs : List Tx) (bals : Balances) (id : String)
    (h : ∀ t ∈ txs, t.sender ≠ id ∧ t.recipient ≠ id) :
    getBal (applyTxs bals txs) id = getBal bals id := by
  induction txs generalizing bals with
  | nil => rfl
  | cons t rest ih =>
    have ht := h t (by simp)
    simp only [applyTxs, List.foldl]
    have hrest := ih (applyTx bals t) (fun t' ht' => h t' (List.mem_cons_of_mem t ht'))
    simp only [applyTxs] at hrest
    rw [hrest, getBal_applyTx]
    simp [ht.1, ht.2]

theorem settleLoop_nil_left (cs : List (String × ℚ)) :
    settleLoop [] cs = ([], ([], cs)) := by
  simp [settleLoop]

theorem settleLoop_nil_right (p : String × ℚ) (ds : List (String × ℚ)) :
    settleLoop (p :: ds) [] = ([], (p :: ds, [])) := by
  simp [settleLoop]

theorem settleLoop_b1 (d c : String) (da ca : ℚ) (ds cs : List (String × ℚ))
    (hle : da ≤ ca) (hlt : ca - da < 1/100) :
    settleLoop ((d, da) :: ds) ((c, ca) :: cs)
      = (⟨d, c, da⟩ :: (settleLoop ds cs).1, (settleLoop ds cs).2) := by
  rw [settleLoop, if_pos hle, if_pos hlt]

theorem settleLoop_b2 (d c : String) (da ca : ℚ) (ds cs : List (String × ℚ))
    (hle : da ≤ ca) (hge : ¬ ca - da < 1/100) :
    settleLoop ((d, da) :: ds) ((c, ca) :: cs)
      = (⟨d, c, da⟩ :: (settleLoop ds ((c, ca - da) :: cs)).1,
          (settleLoop ds ((c, ca - da) :: cs)).2) := by
  rw [settleLoop, if_pos hle, if_neg hge]

theorem settleLoop_b3 (d c : String) (da ca : ℚ) (ds cs : List (String × ℚ))
    (hgt : ¬ da ≤ ca) (hlt : da - ca < 1/100) :
    settleLoop ((d, da) :: ds) ((c, ca) :: cs)
      = (⟨d, c, ca⟩ :: (settleLoop ds cs).1, (settleLoop ds cs).2) := by
  rw [settleLoop, if_neg hgt, if_pos hlt]

theorem settleLoop_b4 (d c : String) (da ca : ℚ) (ds cs : List (String × ℚ))
    (hgt : ¬ da ≤ ca) (hge : ¬ da - ca < 1/100) :
    settleLoop ((d, da) :: ds) ((c, ca) :: cs)
      = (⟨d, c, ca⟩ :: (settleLoop ((d, da - ca) :: ds) cs).1,
          (settleLoop ((d, da - ca) :: ds) cs).2) := by
  rw [settleLoop, if_neg hgt, if_neg hge]


theorem keys_step (d c : String) (dks cks : List String)
    (hnd : ((d :: dks) ++ (c :: cks)).Nodup) :
    d ≠ c ∧ d ∉ dks ∧ d ∉ cks ∧ c ∉ dks ∧ c ∉ cks ∧ (dks ++ cks).Nodup
      ∧ (dks ++ (c :: cks)).Nodup ∧ ((d :: dks) ++ cks).Nodup := by
  rw [List.cons_append, List.nodup_cons] at hnd
  obtain ⟨hdmem, hnd1⟩ := hnd
  rw [List.nodup_middle, List.nodup_cons] at hnd1
  obtain ⟨hcmem, hnd2⟩ := hnd1
  simp only [List.mem_append, List.mem_cons, not_or] at hdmem hcmem
  refine ⟨fun he => hdmem.2.1 he, hdmem.1, hdmem.2.2, hcmem.1, hcmem.2, hnd2,
    ?_, ?_⟩
  · rw [List.nodup_middle, List.nodup_cons]
    exact ⟨fun he => (List.mem_append.mp he).elim hcmem.1 hcmem.2, hnd2⟩
  · rw [List.cons_append, List.nodup_cons]
    refine ⟨?_, hnd2⟩
    intro he
    rcases List.mem_append.mp he with h | h
    · exact hdmem.1 h
    · exact hdmem.2.2 h

theorem fst_ne_of_not_mem (x : String × ℚ) (l : List (String × ℚ)) (y : String)
    (hx : x ∈ l) (hy : y ∉ l.map Prod.fst) : x.1 ≠ y := by
  intro he
  exact hy (he ▸ List.mem_map_of_mem Prod.fst hx)

theorem getBal_applyTx_sender (bals : Balances) (d c : String) (a : ℚ)
    (hdc : d ≠ c) :
    getBal (applyTx bals ⟨d, c, a⟩) d = getBal bals d + a := by
  rw [getBal_applyTx]
  simp [hdc.symm]

theorem getBal_applyTx_recipient (bals : Balances) (d c : String) (a : ℚ)
    (hdc : d ≠ c) :
    getBal (applyTx bals ⟨d, c, a⟩) c = getBal bals c - a := by
  rw [getBal_applyTx]
  simp [hdc]

theorem getBal_applyTx_other (bals : Balances) (d c id : String) (a : ℚ)
    (h1 : id ≠ d) (h2 : id ≠ c) :
    getBal (applyTx bals ⟨d, c, a⟩) id = getBal bals id := by
  have hd1 : ¬ d = id := fun he => h1 he.symm
  have hc1 : ¬ c = id := fun he => h2 he.symm
  rw [getBal_applyTx]
  simp [hd1, hc1]

/-- The two-pointer loop, run to full exhaustion of both lists, settles every
listed participant to within 0.01 and leaves everyone else untouched. -/
theorem settleLoop_settles (ds cs : List (String × ℚ)) :
    ∀ bals : Balances,
      (ds.map Prod.fst ++ cs.map Prod.fst).Nodup →
      (∀ p ∈ ds, getBal bals p.1 = -p.2) →
      (∀ p ∈ cs, getBal bals p.1 = p.2) →
      (settleLoop ds cs).2 = ([], []) →
      (∀ p ∈ ds, |getBal (applyTxs bals (settleLoop ds cs).1) p.1| < 1/100)
        ∧ (∀ p ∈ cs, |getBal (applyTxs bals (settleLoop ds cs).1) p.1| < 1/100)
        ∧ (∀ id, id ∉ ds.map Prod.fst → id ∉ cs.map Prod.fst →
            getBal (applyTxs bals (settleLoop ds cs).1) id = getBal bals id) := by
  induction ds, cs using settleLoop.induct with
  | case1 cs =>
    intro bals hnd hd hc hres
    rw [settleLoop_nil_left] at hres
    simp only [Prod.mk.injEq] at hres
    obtain ⟨-, hcs⟩ := hres
    subst hcs
    rw [settleLoop_nil_left]
    exact ⟨by simp, by simp, fun id _ _ => rfl⟩
  | case2 ds hne =>
    intro bals hnd hd hc hres
    cases ds with
    | nil => exact absurd rfl (by intro h; exact hne h)
    | cons p ds' =>
      rw [settleLoop_nil_right] at hres
      simp at hres
  | case3 d da ds c ca cs hle hlt ih =>
    intro bals hnd hd hc hres
    rw [settleLoop_b1 d c da ca ds cs hle hlt] at hres ⊢
    simp only at hres ⊢
    obtain ⟨hdc, hdd, hdcs, hcd, hccs, hnd', hndc, hndd⟩ :=
      keys_step d c (ds.map Prod.fst) (cs.map Prod.fst)
        (by simpa using hnd)
    have hbd : getBal (applyTx bals ⟨d, c, da⟩) d = 0 := by
      rw [getBal_applyTx_sender bals d c da hdc,
        show getBal bals d = -da from hd (d, da) (by simp)]
      ring
    have hbc : getBal (applyTx bals ⟨d, c, da⟩) c = ca - da := by
      rw [getBal_applyTx_recipient bals d c da hdc,
        show getBal bals c = ca from hc (c, ca) (by simp)]
    have hbo : ∀ id, id ≠ d → id ≠ c →
        getBal (applyTx bals ⟨d, c, da⟩) id = getBal bals id := by
      intro id h1 h2
      exact getBal_applyTx_other bals d c id da h1 h2
    have hd' : ∀ p ∈ ds, getBal (applyTx bals ⟨d, c, da⟩) p.1 = -p.2 := by
      intro p hp
      rw [hbo p.1 (fst_ne_of_not_mem p ds d hp hdd)
        (fst_ne_of_not_mem p ds c hp hcd)]
      exact hd p (by simp [hp])
    have hc' : ∀ p ∈ cs, getBal (applyTx bals ⟨d, c, da⟩) p.1 = p.2 := by
      intro p hp
      rw [hbo p.1 (fst_ne_of_not_mem p cs d hp hdcs)
        (fst_ne_of_not_mem p cs c hp hccs)]
      exact hc p (by simp [hp])
    obtain ⟨ih1, ih2, ih3⟩ := ih (applyTx bals ⟨d, c, da⟩) hnd' hd' hc' hres
    have happ : applyTxs bals (⟨d, c, da⟩ :: (settleLoop ds cs).1)
        = applyTxs (applyTx bals ⟨d, c, da⟩) (settleLoop ds cs).1 := rfl
    rw [happ]
    refine ⟨?_, ?_, ?_⟩
    · intro p hp
      rcases List.mem_cons.mp hp with rfl | hp'
      · rw [ih3 d hdd hdcs, hbd]
        norm_num
      · exact ih1 p hp'
    · intro p hp
      rcases List.mem_cons.mp hp with rfl | hp'
      · rw [ih3 c hcd hccs, hbc, abs_of_nonneg (sub_nonneg.mpr hle)]
        exact hlt
      · exact ih2 p hp'
    · intro id hid1 hid2
      simp only [List.map_cons, List.mem_cons, not_or] at hid1 hid2
      rw [ih3 id hid1.2 hid2.2, hbo id hid1.1 hid2.1]
  | case4 d da ds c ca cs hle hge ih =>
    intro bals hnd hd hc hres
    rw [settleLoop_b2 d c da ca ds cs hle hge] at hres ⊢
    simp only at hres ⊢
    obtain ⟨hdc, hdd, hdcs, hcd, hccs, hnd', hndc, hndd⟩ :=
      keys_step d c (ds.map Prod.fst) (cs.map Prod.fst)
        (by simpa using hnd)
    have hbd : getBal (applyTx bals ⟨d, c, da⟩) d = 0 := by
      rw [getBal_applyTx_sender bals d c da hdc,
        show getBal bals d = -da from hd (d, da) (by simp)]
      ring
    have hbc : getBal (applyTx bals ⟨d, c, da⟩) c = ca - da := by
      rw [getBal_applyTx_recipient bals d c da hdc,
        show getBal bals c = ca from hc (c, ca) (by simp)]
    have hbo : ∀ id, id ≠ d → id ≠ c →
        getBal (applyTx bals ⟨d, c, da⟩) id = getBal bals id := by
      intro id h1 h2
      exact getBal_applyTx_other bals d c id da h1 h2
    have hd' : ∀ p ∈ ds, getBal (applyTx bals ⟨d, c, da⟩) p.1 = -p.2 := by
      intro p hp
      rw [hbo p.1 (fst_ne_of_not_mem p ds d hp hdd)
        (fst_ne_of_not_mem p ds c hp hcd)]
      exact hd p (by simp [hp])
    have hc' : ∀ p ∈ (c, ca - da) :: cs,
        getBal (applyTx bals ⟨d, c, da⟩) p.1 = p.2 := by
      intro p hp
      rcases List.mem_cons.mp hp with rfl | hp'
      · exact hbc
      · rw [hbo p.1 (fst_ne_of_not_mem p cs d hp' hdcs)
          (fst_ne_of_not_mem p cs c hp' hccs)]
        exact hc p (by simp [hp'])
    obtain ⟨ih1, ih2, ih3⟩ := ih (applyTx bals ⟨d, c, da⟩)
      (by simpa using hndc) hd' hc' hres
    have happ : applyTxs bals
          (⟨d, c, da⟩ :: (settleLoop ds ((c, ca - da) :: cs)).1)
        = applyTxs (applyTx bals ⟨d, c, da⟩)
          (settleLoop ds ((c, ca - da) :: cs)).1 := rfl
    rw [happ]
    refine ⟨?_, ?_, ?_⟩
    · intro p hp
      rcases List.mem_cons.mp hp with rfl | hp'
      · rw [ih3 d hdd (by simp [hdc, hdcs]), hbd]
        norm_num
      · exact ih1 p hp'
    · intro p hp
      rcases List.mem_cons.mp hp with rfl | hp'
      · exact ih2 (c, ca - da) (by simp)
      · exact ih2 p (by simp [hp'])
    · intro id hid1 hid2
      simp only [List.map_cons, List.mem_cons, not_or] at hid1 hid2
      rw [ih3 id hid1.2 (by simp [hid2.1, hid2.2]), hbo id hid1.1 hid2.1]
  | case5 d da ds c ca cs hgt hlt ih =>
    intro bals hnd hd hc hres
    rw [settleLoop_b3 d c da ca ds cs hgt hlt] at hres ⊢
    simp only at hres ⊢
    obtain ⟨hdc, hdd, hdcs, hcd, hccs, hnd', hndc, hndd⟩ :=
      keys_step d c (ds.map Prod.fst) (cs.map Prod.fst)
        (by simpa using hnd)
    have hbd : getBal (applyTx bals ⟨d, c, ca⟩) d = -(da - ca) := by
      rw [getBal_applyTx_sender bals d c ca hdc,
        show getBal bals d = -da from hd (d, da) (by simp)]
      ring
    have hbc : getBal (applyTx bals ⟨d, c, ca⟩) c = 0 := by
      rw [getBal_applyTx_recipient bals d c ca hdc,
        show getBal bals c = ca from hc (c, ca) (by simp)]
      ring
    have hbo : ∀ id, id ≠ d → id ≠ c →
        getBal (applyTx bals ⟨d, c, ca⟩) id = getBal bals id := by
      intro id h1 h2
      exact getBal_applyTx_other bals d c id ca h1 h2
    have hd' : ∀ p ∈ ds, getBal (applyTx bals ⟨d, c, ca⟩) p.1 = -p.2 := by
      intro p hp
      rw [hbo p.1 (fst_ne_of_not_mem p ds d hp hdd)
        (fst_ne_of_not_mem p ds c hp hcd)]
      exact hd p (by simp [hp])
    have hc' : ∀ p ∈ cs, getBal (applyTx bals ⟨d, c, ca⟩) p.1 = p.2 := by
      intro p hp
      rw [hbo p.1 (fst_ne_of_not_mem p cs d hp hdcs)
        (fst_ne_of_not_mem p cs c hp hccs)]
      exact hc p (by simp [hp])
    obtain ⟨ih1, ih2, ih3⟩ := ih (applyTx bals ⟨d, c, ca⟩) hnd' hd' hc' hres
    have happ : applyTxs bals (⟨d, c, ca⟩ :: (settleLoop ds cs).1)
        = applyTxs (applyTx bals ⟨d, c, ca⟩) (settleLoop ds cs).1 := rfl
    rw [happ]
    refine ⟨?_, ?_, ?_⟩
    · intro p hp
      rcases List.mem_cons.mp hp with rfl | hp'
      · rw [ih3 d hdd hdcs, hbd, abs_neg,
          abs_of_nonneg (sub_nonneg.mpr (le_of_lt (not_le.mp hgt)))]
        exact hlt
      · exact ih1 p hp'
    · intro p hp
      rcases List.mem_cons.mp hp with rfl | hp'
      · rw [ih3 c hcd hccs, hbc]
        norm_num
      · exact ih2 p hp'
    · intro id hid1 hid2
      simp only [List.map_cons, List.mem_cons, not_or] at hid1 hid2
      rw [ih3 id hid1.2 hid2.2, hbo id hid1.1 hid2.1]
  | case6 d da ds c ca cs hgt hge ih =>
    intro bals hnd hd hc hres
    rw [settleLoop_b4 d c da ca ds cs hgt hge] at hres ⊢
    simp only at hres ⊢
    obtain ⟨hdc, hdd, hdcs, hcd, hccs, hnd', hndc, hndd⟩ :=
      keys_step d c (ds.map Prod.fst) (cs.map Prod.fst)
        (by simpa using hnd)
    have hbd : getBal (applyTx bals ⟨d, c, ca⟩) d = -(da - ca) := by
      rw [getBal_applyTx_sender bals d c ca hdc,
        show getBal bals d = -da from hd (d, da) (by simp)]
      ring
    have hbc : getBal (applyTx bals ⟨d, c, ca⟩) c = 0 := by
      rw [getBal_applyTx_recipient bals d c ca hdc,
        show getBal bals c = ca from hc (c, ca) (by simp)]
      ring
    have hbo : ∀ id, id ≠ d → id ≠ c →
        getBal (applyTx bals ⟨d, c, ca⟩) id = getBal bals id := by
      intro id h1 h2
      exact getBal_applyTx_other bals d c id ca h1 h2
    have hd' : ∀ p ∈ (d, da - ca) :: ds,
        getBal (applyTx bals ⟨d, c, ca⟩) p.1 = -p.2 := by
      intro p hp
      rcases List.mem_cons.mp hp with rfl | hp'
      · exact hbd
      · rw [hbo p.1 (fst_ne_of_not_mem p ds d hp' hdd)
          (fst_ne_of_not_mem p ds c hp' hcd)]
        exact hd p (by simp [hp'])
    have hc' : ∀ p ∈ cs, getBal (applyTx bals ⟨d, c, ca⟩) p.1 = p.2 := by
      intro p hp
      rw [hbo p.1 (fst_ne_of_not_mem p cs d hp hdcs)
        (fst_ne_of_not_mem p cs c hp hccs)]
      exact hc p (by simp [hp])
    obtain ⟨ih1, ih2, ih3⟩ := ih (applyTx bals ⟨d, c, ca⟩)
      (by simpa using hndd) hd' hc' hres
    have happ : applyTxs bals
          (⟨d, c, ca⟩ :: (settleLoop ((d, da - ca) :: ds) cs).1)
        = applyTxs (applyTx bals ⟨d, c, ca⟩)
          (settleLoop ((d, da - ca) :: ds) cs).1 := rfl
    rw [happ]
    refine ⟨?_, ?_, ?_⟩
    · intro p hp
      rcases List.mem_cons.mp hp with rfl | hp'
      · exact ih1 (d, da - ca) (by simp)
      · exact ih1 p (by simp [hp'])
    · intro p hp
      rcases List.mem_cons.mp hp with rfl | hp'
      · have hcd' : ¬ c = d := fun he => hdc he.symm
        rw [ih3 c (by simp [hcd', hcd]) hccs, hbc]
        norm_num
      · exact ih2 p hp'
    · intro id hid1 hid2
      simp only [List.map_cons, List.mem_cons, not_or] at hid1 hid2
      rw [ih3 id (by simp [hid1.1, hid1.2]) hid2.2, hbo id hid1.1 hid2.1]

theorem perm_insertDesc (x : String × ℚ) (l : List (String × ℚ)) :
    List.Perm (insertDesc x l) (x :: l) := by
  induction l with
  | nil => exact List.Perm.refl _
  | cons y ys ih =>
    by_cases h : y.2 < x.2
    · simp [insertDesc, h]
    · simp only [insertDesc, if_neg h]
      exact (List.Perm.cons y ih).trans (List.Perm.swap x y ys)

theorem perm_foldl_insertDesc (l : List (String × ℚ)) :
    ∀ acc, List.Perm (l.foldl (fun a x => insertDesc x a) acc) (acc ++ l) := by
  induction l with
  | nil => simp
  | cons x xs ih =>
    intro acc
    simp only [List.foldl]
    refine (ih (insertDesc x acc)).trans ?_
    refine (List.Perm.append_right xs (perm_insertDesc x acc)).trans ?_
    rw [List.cons_append]
    exact List.perm_middle.symm

theorem perm_sortDesc (l : List (String × ℚ)) : List.Perm (sortDesc l) l := by
  simpa using perm_foldl_insertDesc l []

theorem eq_of_mem_of_nodup_keys (l : List (String × ℚ))
    (hnd : (l.map Prod.fst).Nodup) (p q : String × ℚ)
    (hp : p ∈ l) (hq : q ∈ l) (h : p.1 = q.1) : p = q := by
  induction l with
  | nil => simp at hp
  | cons x xs ih =>
    simp only [List.map_cons, List.nodup_cons] at hnd
    rcases List.mem_cons.mp hp with rfl | hp' <;>
      rcases List.mem_cons.mp hq with rfl | hq'
    · rfl
    · exact absurd (h ▸ List.mem_map_of_mem Prod.fst hq') hnd.1
    · exact absurd (h ▸ List.mem_map_of_mem Prod.fst hp') hnd.1
    · exact ih hnd.2 hp' hq'

theorem getBal_eq_of_mem (l : List (String × ℚ))
    (hnd : (l.map Prod.fst).Nodup) (p : String × ℚ) (hp : p ∈ l) :
    getBal l p.1 = p.2 := by
  induction l with
  | nil => simp at hp
  | cons x xs ih =>
    simp only [List.map_cons, List.nodup_cons] at hnd
    rcases List.mem_cons.mp hp with rfl | hp'
    · simp [getBal, List.find?]
    · have hx : ¬ x.1 = p.1 := by
        intro he
        exact hnd.1 (he ▸ List.mem_map_of_mem Prod.fst hp')
      simp only [getBal, List.find?]
      rw [show decide (x.1 = p.1) = false by simpa using hx]
      exact ih hnd.2 hp'

theorem exists_entry_of_getBal_ne (l : List (String × ℚ)) (id : String)
    (h : getBal l id ≠ 0) : ∃ p ∈ l, p.1 = id ∧ p.2 = getBal l id := by
  cases hf : List.find? (fun p => p.1 = id) l with
  | none =>
    exfalso
    apply h
    unfold getBal
    rw [hf]
  | some p =>
    refine ⟨p, List.mem_of_find?_eq_some hf, ?_, ?_⟩
    · have hpred := List.find?_some hf
      simpa using hpred
    · unfold getBal
      rw [hf]

/-- C4 amended: when the greedy loop exhausts both the debtor and the
creditor lists (no residual on either side), applying every planned
transaction as a settlement bill drives every participant's balance to
within 0.01 of zero. -/
theorem planSettlement_drives_near_zero (bals : Balances)
    (hnd : (bals.map Prod.fst).Nodup)
    (hres : (settleLoop (sortDesc (debtorsOf bals))
        (sortDesc (creditorsOf bals))).2 = ([], [])) :
    ∀ id, |getBal (applyTxs bals (planSettlement bals)) id| ≤ 1/100 := by
  have hpermD : List.Perm ((sortDesc (debtorsOf bals)).map Prod.fst)
      ((debtorsOf bals).map Prod.fst) := (perm_sortDesc _).map Prod.fst
  have hpermC : List.Perm ((sortDesc (creditorsOf bals)).map Prod.fst)
      ((creditorsOf bals).map Prod.fst) := (perm_sortDesc _).map Prod.fst
  have hdk : (debtorsOf bals).map Prod.fst
      = (bals.filter (fun p => p.2 < -(1/100))).map Prod.fst := by
    simp [debtorsOf, List.map_map]
  have hck : (creditorsOf bals).map Prod.fst
      = (bals.filter (fun p => p.2 > 1/100)).map Prod.fst := rfl
  have hndD : ((debtorsOf bals).map Prod.fst).Nodup := by
    rw [hdk]
    exact ((List.filter_sublist bals).map Prod.fst).nodup hnd
  have hndC : ((creditorsOf bals).map Prod.fst).Nodup := by
    rw [hck]
    exact ((List.filter_sublist bals).map Prod.fst).nodup hnd
  have hdisj : ∀ a, a ∈ (debtorsOf bals).map Prod.fst →
      a ∈ (creditorsOf bals).map Prod.fst → False := by
    intro a ha hc
    rw [hdk] at ha
    rw [hck] at hc
    obtain ⟨p, hpf, hpa⟩ := List.mem_map.mp ha
    obtain ⟨q, hqf, hqa⟩ := List.mem_map.mp hc
    rw [List.mem_filter] at hpf hqf
    have hpq : p = q :=
      eq_of_mem_of_nodup_keys bals hnd p q hpf.1 hqf.1 (by rw [hpa, hqa])
    have h1 : p.2 < -(1/100) := by simpa using hpf.2
    have h2 : q.2 > 1/100 := by simpa using hqf.2
    rw [hpq] at h1
    linarith
  have hkeys : ((sortDesc (debtorsOf bals)).map Prod.fst
      ++ (sortDesc (creditorsOf bals)).map Prod.fst).Nodup := by
    refine ((List.Perm.append hpermD hpermC).nodup_iff).mpr ?_
    rw [List.nodup_append]
    exact ⟨hndD, hndC, fun a ha => fun hc => hdisj a ha hc⟩
  have hd : ∀ p ∈ sortDesc (debtorsOf bals), getBal bals p.1 = -p.2 := by
    intro p hp
    have hp' : p ∈ debtorsOf bals := (perm_sortDesc _).mem_iff.mp hp
    obtain ⟨q, hqf, rfl⟩ := List.mem_map.mp hp'
    rw [List.mem_filter] at hqf
    have := getBal_eq_of_mem bals hnd q hqf.1
    simpa using this
  have hc : ∀ p ∈ sortDesc (creditorsOf bals), getBal bals p.1 = p.2 := by
    intro p hp
    have hp' : p ∈ creditorsOf bals := (perm_sortDesc _).mem_iff.mp hp
    rw [creditorsOf, List.mem_filter] at hp'
    exact getBal_eq_of_mem bals hnd p hp'.1
  obtain ⟨S1, S2, S3⟩ := settleLoop_settles (sortDesc (debtorsOf bals))
    (sortDesc (creditorsOf bals)) bals hkeys hd hc hres
  intro id
  unfold planSettlement
  by_cases h1 : id ∈ (sortDesc (debtorsOf bals)).map Prod.fst
  · obtain ⟨p, hp, rfl⟩ := List.mem_map.mp h1
    exact le_of_lt (S1 p hp)
  · by_cases h2 : id ∈ (sortDesc (creditorsOf bals)).map Prod.fst
    · obtain ⟨p, hp, rfl⟩ := List.mem_map.mp h2
      exact le_of_lt (S2 p hp)
    · rw [S3 id h1 h2]
      by_cases hlt : getBal bals id < -(1/100)
      · exfalso
        obtain ⟨p, hpm, hpi, hpv⟩ := exists_entry_of_getBal_ne bals id
          (by intro h0; rw [h0] at hlt; norm_num at hlt)
        apply h1
        rw [hpermD.mem_iff, hdk]
        refine List.mem_map.mpr ⟨p, ?_, hpi⟩
        rw [List.mem_filter]
        refine ⟨hpm, ?_⟩
        simp only [decide_eq_true_eq]
        rw [hpv]
        exact hlt
      · by_cases hgt : 1/100 < getBal bals id
        · exfalso
          obtain ⟨p, hpm, hpi, hpv⟩ := exists_entry_of_getBal_ne bals id
            (by intro h0; rw [h0] at hgt; norm_num at hgt)
          apply h2
          rw [hpermC.mem_iff, hck]
          refine List.mem_map.mpr ⟨p, ?_, hpi⟩
          rw [List.mem_filter]
          refine ⟨hpm, ?_⟩
          simp only [decide_eq_true_eq]
          rw [hpv]
          exact hgt
        · push_neg at hlt hgt
          exact abs_le.mpr ⟨by linarith, hgt⟩

/-- Witness for the amended C4 at the spec's own example
(balances a: +30, b: -30). -/
theorem planSettlement_drives_near_zero_witness :
    |getBal (applyTxs [("a", 30), ("b", -30)]
        (planSettlement [("a", 30), ("b", -30)])) "b"| ≤ 1/100 := by
  have hres : (settleLoop (sortDesc (debtorsOf [("a", 30), ("b", -30)]))
      (sortDesc (creditorsOf [("a", 30), ("b", -30)]))).2 = ([], []) := by
    norm_num [debtorsOf, creditorsOf, sortDesc, insertDesc, settleLoop]
  exact planSettlement_drives_near_zero [("a", 30), ("b", -30)]
    (by decide) hres "b"

/-! ## Store operations (localStorage-backed store in DefaultService.ts)

The store keeps global `meta.balances`, the per-year persisted bill arrays
(`utility-splitter-bills-<year>` keys, modelled as the `billStorage`
association list), the currently displayed year's bills, and the persisted
meta snapshot.  `getYear` models `new Date(d).getFullYear().toString()` on
the ISO date strings the app produces. -/

def getYear (date : String) : String := date.take 4

def getStored (storage : List (String × List Bill)) (year : String) :
    List Bill :=
  match storage.find? (fun p => p.1 = year) with
  | some p => p.2
  | none => []

def setStored : List (String × List Bill) → String → List Bill →
    List (String × List Bill)
  | [], y, bs => [(y, bs)]
  | (k, v) :: rest, y, bs =>
    if k = y then (k, bs) :: rest else (k, v) :: setStored rest y bs

def insertAsc (x : String) : List String → List String
  | [] => [x]
  | y :: ys => if x ≤ y then x :: y :: ys else y :: insertAsc x ys

/-- Models the JS `[...years, billYear].sort()`. -/
def sortStrings (l : List String) : List String := l.foldr insertAsc []

def updatedYears (years : List String) (y : String) : List String :=
  if y ∈ years then years else sortStrings (years ++ [y])

structure StoreState where
  balances : Balances
  availableYears : List String
  currentYear : String
  currentBills : List Bill
  billStorage : List (String × List Bill)
  storedMeta : Balances × List String
deriving DecidableEq, Repr

def initialState (y : String) : StoreState :=
  { balances := [], availableYears := [y], currentYear := y,
    currentBills := [], billStorage := [], storedMeta := ([], [y]) }

/-- `addBill`: update balances incrementally, extend the year index, save the
meta snapshot, and prepend the bill to its year's stored array (the current
view too when the bill's year is the displayed year). -/
def addBillOp (st : StoreState) (bill : Bill) : StoreState :=
  if getYear bill.date = st.currentYear then
    { balances := applyBillBalances st.balances bill,
      availableYears := updatedYears st.availableYears (getYear bill.date),
      currentYear := st.currentYear,
      currentBills := bill :: st.currentBills,
      billStorage := setStored st.billStorage (getYear bill.date)
        (bill :: st.currentBills),
      storedMeta := (applyBillBalances st.balances bill,
        updatedYears st.availableYears (getYear bill.date)) }
  else
    { balances := applyBillBalances st.balances bill,
      availableYears := updatedYears st.availableYears (getYear bill.date),
      currentYear := st.currentYear,
      currentBills := st.currentBills,
      billStorage := setStored st.billStorage (getYear bill.date)
        (bill :: getStored st.billStorage (getYear bill.date)),
      storedMeta := (applyBillBalances st.balances bill,
        updatedYears st.availableYears (getYear bill.date)) }

/-- `deleteBill`: a silent no-op when no current bill has the id; otherwise
reverse the bill's balance effect, drop it from the current list, and save
both the year's array and the meta snapshot. -/
def deleteBillOp (st : StoreState) (id : String) : StoreState :=
  match st.currentBills.find? (fun b => b.id = id) with
  | none => st
  | some billToDelete =>
    { balances := removeBillBalances st.balances billToDelete,
      availableYears := st.availableYears,
      currentYear := st.currentYear,
      currentBills := st.currentBills.filter (fun b => b.id ≠ id),
      billStorage := setStored st.billStorage st.currentYear
        (st.currentBills.filter (fun b => b.id ≠ id)),
      storedMeta := (removeBillBalances st.balances billToDelete,
        st.availableYears) }

/-- `updateBill`: a silent no-op when no current bill has the id; otherwise
reverse the old bill, apply the new one, and replace it in place. -/
def updateBillOp (st : StoreState) (updatedBill : Bill) : StoreState :=
  match st.currentBills.find? (fun b => b.id = updatedBill.id) with
  | none => st
  | some oldBill =>
    { balances := applyBillBalances
        (removeBillBalances st.balances oldBill) updatedBill,
      availableYears := st.availableYears,
      currentYear := st.currentYear,
      currentBills := st.currentBills.map
        (fun b => if b.id = updatedBill.id then updatedBill else b),
      billStorage := setStored st.billStorage st.currentYear
        (st.currentBills.map
          (fun b => if b.id = updatedBill.id then updatedBill else b)),
      storedMeta := (applyBillBalances
          (removeBillBalances st.balances oldBill) updatedBill,
        st.availableYears) }

/-- `loadYear` (successful path): switch the view to the stored bills of the
requested year; balances and storage are untouched. -/
def loadYearOp (st : StoreState) (year : String) : StoreState :=
  { balances := st.balances, availableYears := st.availableYears,
    currentYear := year, currentBills := getStored st.billStorage year,
    billStorage := st.billStorage, storedMeta := st.storedMeta }

/-- All bills in persistent storage, across every year. -/
def allBills (st : StoreState) : List Bill :=
  (st.billStorage.map Prod.snd).flatten

def allBillIds (st : StoreState) : List String :=
  (allBills st).map Bill.id

/-- The store states reachable from a fresh store by adding (with fresh
uuids), updating, deleting and switching years. -/
inductive Reachable : StoreState → Prop where
  | init (y : String) : Reachable (initialState y)
  | addBill (st : StoreState) (bill : Bill) : Reachable st →
      bill.id ∉ allBillIds st → Reachable (addBillOp st bill)
  | deleteBill (st : StoreState) (id : String) : Reachable st →
      Reachable (deleteBillOp st id)
  | updateBill (st : StoreState) (bill : Bill) : Reachable st →
      Reachable (updateBillOp st bill)
  | loadYear (st : StoreState) (y : String) : Reachable st →
      Reachable (loadYearOp st y)

def storageDelta (storage : List (String × List Bill)) (id : String) : ℚ :=
  (storage.map (fun p => billsDelta p.2 id)).sum

def countId (bills : List Bill) (bid : String) : Nat :=
  (bills.filter (fun b => b.id = bid)).length

def storageCount (storage : List (String × List Bill)) (bid : String) : Nat :=
  (storage.map (fun p => countId p.2 bid)).sum

theorem billsDelta_cons (b : Bill) (bs : List Bill) (id : String) :
    billsDelta (b :: bs) id = billDelta b id + billsDelta bs id := by
  simp [billsDelta]

theorem billsDelta_append (a b : List Bill) (id : String) :
    billsDelta (a ++ b) id = billsDelta a id + billsDelta b id := by
  simp [billsDelta]

theorem countId_cons (b : Bill) (bs : List Bill) (bid : String) :
    countId (b :: bs) bid
      = (if b.id = bid then 1 else 0) + countId bs bid := by
  by_cases h : b.id = bid
  · simp [countId, List.filter, h]
    omega
  · simp [countId, List.filter, h]

theorem getStored_setStored_same (l : List (String × List Bill)) (y : String)
    (bs : List Bill) : getStored (setStored l y bs) y = bs := by
  induction l with
  | nil => simp [setStored, getStored, List.find?]
  | cons p rest ih =>
    obtain ⟨k, v⟩ := p
    by_cases h : k = y
    · simp [setStored, h, getStored, List.find?]
    · simp only [setStored, if_neg h, getStored, List.find?]
      rw [show (decide (k = y)) = false by simpa using h]
      exact ih

theorem getStored_setStored_other (l : List (String × List Bill))
    (y y' : String) (bs : List Bill) (h : y ≠ y') :
    getStored (setStored l y bs) y' = getStored l y' := by
  induction l with
  | nil =>
    simp only [setStored, getStored, List.find?]
    rw [show (decide (y = y')) = false by simpa using h]
  | cons p rest ih =>
    obtain ⟨k, v⟩ := p
    by_cases hk : k = y
    · subst hk
      simp only [setStored, if_pos rfl, getStored, List.find?]
      rw [show (decide (k = y')) = false by simpa using h]
    · simp only [setStored, if_neg hk, getStored, List.find?]
      cases hd : decide (k = y') with
      | true => rfl
      | false => exact ih

theorem storageDelta_setStored (l : List (String × List Bill)) (y : String)
    (bs : List Bill) (id : String) :
    storageDelta (setStored l y bs) id
      = storageDelta l id - billsDelta (getStored l y) id + billsDelta bs id := by
  induction l with
  | nil => simp [setStored, storageDelta, getStored, List.find?, billsDelta]
  | cons p rest ih =>
    obtain ⟨k, v⟩ := p
    by_cases h : k = y
    · subst h
      have hset : setStored ((k, v) :: rest) k bs = (k, bs) :: rest := by
        simp [setStored]
      have hget : getStored ((k, v) :: rest) k = v := by
        simp [getStored, List.find?]
      rw [hset, hget]
      simp only [storageDelta, List.map_cons, List.sum_cons]
      ring
    · have hset : setStored ((k, v) :: rest) y bs
          = (k, v) :: setStored rest y bs := by
        simp [setStored, h]
      have hget : getStored ((k, v) :: rest) y = getStored rest y := by
        simp only [getStored, List.find?]
        rw [show (decide (k = y)) = false by simpa using h]
      rw [hset, hget]
      simp only [storageDelta, List.map_cons, List.sum_cons]
      simp only [storageDelta] at ih
      rw [ih]
      ring

theorem storageCount_setStored (l : List (String × List Bill)) (y : String)
    (bs : List Bill) (bid : String) :
    storageCount (setStored l y bs) bid + countId (getStored l y) bid
      = storageCount l bid + countId bs bid := by
  induction l with
  | nil => simp [setStored, storageCount, getStored, List.find?, countId]
  | cons p rest ih =>
    obtain ⟨k, v⟩ := p
    by_cases h : k = y
    · subst h
      have hset : setStored ((k, v) :: rest) k bs = (k, bs) :: rest := by
        simp [setStored]
      have hget : getStored ((k, v) :: rest) k = v := by
        simp [getStored, List.find?]
      rw [hset, hget]
      simp only [storageCount, List.map_cons, List.sum_cons]
      omega
    · have hset : setStored ((k, v) :: rest) y bs
          = (k, v) :: setStored rest y bs := by
        simp [setStored, h]
      have hget : getStored ((k, v) :: rest) y = getStored rest y := by
        simp only [getStored, List.find?]
        rw [show (decide (k = y)) = false by simpa using h]
      rw [hset, hget]
      simp only [storageCount, List.map_cons, List.sum_cons]
      simp only [storageCount] at ih
      omega

theorem storageDelta_eq_flatten (storage : List (String × List Bill))
    (id : String) :
    storageDelta storage id = billsDelta ((storage.map Prod.snd).flatten) id := by
  induction storage with
  | nil => simp [storageDelta, billsDelta]
  | cons p rest ih =>
    simp only [storageDelta, List.map_cons, List.sum_cons, List.flatten_cons,
      billsDelta_append]
    simp only [storageDelta] at ih
    rw [ih]

theorem countId_pos_of_mem (b : Bill) (bills : List Bill) (hb : b ∈ bills) :
    1 ≤ countId bills b.id := by
  have hmem : b ∈ bills.filter (fun x => x.id = b.id) :=
    List.mem_filter.mpr ⟨hb, by simp⟩
  have := List.length_pos.mpr (List.ne_nil_of_mem hmem)
  unfold countId
  omega

theorem filter_ne_eq_self (bills : List Bill) (tid : String)
    (h : countId bills tid = 0) :
    bills.filter (fun b => b.id ≠ tid) = bills := by
  rw [List.filter_eq_self]
  intro a ha
  simp only [decide_eq_true_eq, ne_eq]
  intro he
  have := countId_pos_of_mem a bills ha
  rw [he] at this
  omega

theorem map_replace_eq_self (bills : List Bill) (nb : Bill)
    (h : countId bills nb.id = 0) :
    bills.map (fun b => if b.id = nb.id then nb else b) = bills := by
  induction bills with
  | nil => rfl
  | cons a rest ih =>
    rw [countId_cons] at h
    by_cases ha : a.id = nb.id
    · rw [if_pos ha] at h
      omega
    · rw [List.map_cons, if_neg ha, ih (by omega)]

theorem perm_remove (bills : List Bill) (b : Bill) :
    b ∈ bills → countId bills b.id ≤ 1 →
    List.Perm bills (b :: bills.filter (fun x => x.id ≠ b.id)) := by
  induction bills with
  | nil => intro hb; simp at hb
  | cons h rest ih =>
    intro hb hcnt
    rw [countId_cons] at hcnt
    by_cases hid : h.id = b.id
    · have hb' : b = h := by
        rcases List.mem_cons.mp hb with rfl | hb'
        · rfl
        · exfalso
          have := countId_pos_of_mem b rest hb'
          rw [if_pos hid] at hcnt
          omega
      subst hb'
      have hrest : countId rest b.id = 0 := by
        rw [if_pos hid] at hcnt
        omega
      rw [List.filter_cons_of_neg (by simp)]
      rw [filter_ne_eq_self rest b.id hrest]
    · have hb' : b ∈ rest := by
        rcases List.mem_cons.mp hb with rfl | hb'
        · exact absurd rfl hid
        · exact hb'
      have hcnt' : countId rest b.id ≤ 1 := by
        rw [if_neg hid] at hcnt
        omega
      rw [List.filter_cons_of_pos (by simpa using fun he => hid he)]
      exact ((ih hb' hcnt').cons h).trans (List.Perm.swap b h _)

theorem perm_replace (bills : List Bill) (nb old : Bill) :
    old ∈ bills → old.id = nb.id → countId bills nb.id ≤ 1 →
    List.Perm (bills.map (fun b => if b.id = nb.id then nb else b))
      (nb :: bills.filter (fun b => b.id ≠ nb.id)) := by
  induction bills with
  | nil => intro hm; simp at hm
  | cons h rest ih =>
    intro hm hid hcnt
    rw [countId_cons] at hcnt
    by_cases hh : h.id = nb.id
    · have hrest : countId rest nb.id = 0 := by
        rw [if_pos hh] at hcnt
        omega
      rw [List.map_cons, if_pos hh, map_replace_eq_self rest nb hrest]
      rw [List.filter_cons_of_neg (by simp [hh])]
      rw [filter_ne_eq_self rest nb.id hrest]
    · have hm' : old ∈ rest := by
        rcases List.mem_cons.mp hm with rfl | hm'
        · exact absurd hid hh
        · exact hm'
      have hcnt' : countId rest nb.id ≤ 1 := by
        rw [if_neg hh] at hcnt
        omega
      rw [List.map_cons, if_neg hh]
      rw [List.filter_cons_of_pos (by simpa using fun he => hh he)]
      exact ((ih hm' hid hcnt').cons h).trans (List.Perm.swap nb h _)

theorem billsDelta_perm (l1 l2 : List Bill) (h : List.Perm l1 l2)
    (id : String) : billsDelta l1 id = billsDelta l2 id :=
  List.Perm.sum_eq (h.map (fun b => billDelta b id))

theorem countId_perm (l1 l2 : List Bill) (h : List.Perm l1 l2)
    (bid : String) : countId l1 bid = countId l2 bid := by
  unfold countId
  exact (h.filter (fun b => decide (b.id = bid))).length_eq

theorem countId_append (a b : List Bill) (bid : String) :
    countId (a ++ b) bid = countId a bid + countId b bid := by
  simp [countId, List.filter_append]

theorem storageCount_eq_flatten (storage : List (String × List Bill))
    (bid : String) :
    storageCount storage bid = countId ((storage.map Prod.snd).flatten) bid := by
  induction storage with
  | nil => simp [storageCount, countId]
  | cons p rest ih =>
    simp only [storageCount, List.map_cons, List.sum_cons, List.flatten_cons,
      countId_append]
    simp only [storageCount] at ih
    rw [ih]

theorem countId_eq_zero_of_not_mem (bills : List Bill) (bid : String)
    (h : bid ∉ bills.map Bill.id) : countId bills bid = 0 := by
  unfold countId
  rw [List.length_eq_zero]
  rw [List.filter_eq_nil_iff]
  intro b hb
  simp only [decide_eq_true_eq]
  intro he
  exact h (he ▸ List.mem_map_of_mem Bill.id hb)

theorem countId_getStored_le (storage : List (String × List Bill))
    (y bid : String) :
    countId (getStored storage y) bid ≤ storageCount storage bid := by
  induction storage with
  | nil => simp [getStored, List.find?, countId, storageCount]
  | cons p rest ih =>
    obtain ⟨k, v⟩ := p
    by_cases hk : k = y
    · have hget : getStored ((k, v) :: rest) y = v := by
        simp [getStored, List.find?, hk]
      rw [hget]
      simp only [storageCount, List.map_cons, List.sum_cons]
      omega
    · have hget : getStored ((k, v) :: rest) y = getStored rest y := by
        simp only [getStored, List.find?]
        rw [show (decide (k = y)) = false by simpa using hk]
      rw [hget]
      simp only [storageCount, List.map_cons, List.sum_cons]
      simp only [storageCount] at ih
      omega

theorem find?_bill_eq (bills : List Bill) (id : String) (b : Bill)
    (h : bills.find? (fun x => x.id = id) = some b) : b ∈ bills ∧ b.id = id :=
  ⟨List.mem_of_find?_eq_some h, by simpa using List.find?_some h⟩

/-- The store invariant: incrementally maintained balances agree pointwise
with the per-bill deltas of everything in storage, the displayed bills are
exactly the stored array of the displayed year, and no bill id occurs twice
across storage. -/
theorem reachable_invariant (st : StoreState) (h : Reachable st) :
    (∀ id, getBal st.balances id = storageDelta st.billStorage id)
      ∧ st.currentBills = getStored st.billStorage st.currentYear
      ∧ (∀ bid, storageCount st.billStorage bid ≤ 1) := by
  induction h with
  | init y =>
    refine ⟨fun id => ?_, ?_, fun bid => ?_⟩
    · simp [initialState, getBal, storageDelta]
    · simp [initialState, getStored, List.find?]
    · simp [initialState, storageCount]
  | addBill st bill hr hfresh ih =>
    obtain ⟨ihA, ihB, ihC⟩ := ih
    have hcnt0 : ∀ bid, bid = bill.id → storageCount st.billStorage bid = 0 := by
      intro bid hbid
      subst hbid
      rw [storageCount_eq_flatten]
      exact countId_eq_zero_of_not_mem _ _ hfresh
    by_cases hyr : getYear bill.date = st.currentYear
    · have hstate : addBillOp st bill
          = { balances := applyBillBalances st.balances bill,
              availableYears := updatedYears st.availableYears (getYear bill.date),
              currentYear := st.currentYear,
              currentBills := bill :: st.currentBills,
              billStorage := setStored st.billStorage (getYear bill.date)
                (bill :: st.currentBills),
              storedMeta := (applyBillBalances st.balances bill,
                updatedYears st.availableYears (getYear bill.date)) } := by
        unfold addBillOp
        rw [if_pos hyr]
      rw [hstate]
      have hget : getStored st.billStorage (getYear bill.date)
          = st.currentBills := by
        rw [hyr]
        exact ihB.symm
      refine ⟨fun id => ?_, ?_, fun bid => ?_⟩
      · simp only
        rw [getBal_applyBillBalances, ihA id]
        rw [storageDelta_setStored, hget, billsDelta_cons]
        ring
      · simp only
        rw [← hyr]
        rw [getStored_setStored_same]
      · simp only
        have heq := storageCount_setStored st.billStorage (getYear bill.date)
          (bill :: st.currentBills) bid
        rw [hget, countId_cons] at heq
        by_cases hb : bill.id = bid
        · have h0 := hcnt0 bid hb.symm
          rw [if_pos hb] at heq
          omega
        · rw [if_neg hb] at heq
          have := ihC bid
          omega
    · have hstate : addBillOp st bill
          = { balances := applyBillBalances st.balances bill,
              availableYears := updatedYears st.availableYears (getYear bill.date),
              currentYear := st.currentYear,
              currentBills := st.currentBills,
              billStorage := setStored st.billStorage (getYear bill.date)
                (bill :: getStored st.billStorage (getYear bill.date)),
              storedMeta := (applyBillBalances st.balances bill,
                updatedYears st.availableYears (getYear bill.date)) } := by
        unfold addBillOp
        rw [if_neg hyr]
      rw [hstate]
      refine ⟨fun id => ?_, ?_, fun bid => ?_⟩
      · simp only
        rw [getBal_applyBillBalances, ihA id]
        rw [storageDelta_setStored, billsDelta_cons]
        ring
      · simp only
        rw [getStored_setStored_other _ _ _ _ hyr]
        exact ihB
      · simp only
        have heq := storageCount_setStored st.billStorage (getYear bill.date)
          (bill :: getStored st.billStorage (getYear bill.date)) bid
        rw [countId_cons] at heq
        by_cases hb : bill.id = bid
        · have h0 := hcnt0 bid hb.symm
          have hle := countId_getStored_le st.billStorage (getYear bill.date) bid
          rw [if_pos hb] at heq
          omega
        · rw [if_neg hb] at heq
          have := ihC bid
          omega
  | deleteBill st id hr ih =>
    obtain ⟨ihA, ihB, ihC⟩ := ih
    cases hf : st.currentBills.find? (fun b => b.id = id) with
    | none =>
      have hstate : deleteBillOp st id = st := by
        unfold deleteBillOp
        rw [hf]
      rw [hstate]
      exact ⟨ihA, ihB, ihC⟩
    | some b =>
      obtain ⟨hbm, hbid⟩ := find?_bill_eq st.currentBills id b hf
      have hstate : deleteBillOp st id
          = { balances := removeBillBalances st.balances b,
              availableYears := st.availableYears,
              currentYear := st.currentYear,
              currentBills := st.currentBills.filter (fun x => x.id ≠ id),
              billStorage := setStored st.billStorage st.currentYear
                (st.currentBills.filter (fun x => x.id ≠ id)),
              storedMeta := (removeBillBalances st.balances b,
                st.availableYears) } := by
        unfold deleteBillOp
        rw [hf]
      rw [hstate]
      have hcnt : countId st.currentBills b.id ≤ 1 := by
        rw [ihB]
        exact le_trans (countId_getStored_le st.billStorage st.currentYear b.id)
          (ihC b.id)
      have hperm : List.Perm st.currentBills
          (b :: st.currentBills.filter (fun x => x.id ≠ id)) := by
        have := perm_remove st.currentBills b hbm hcnt
        rw [hbid] at this
        exact this
      have hdel : ∀ qid, billsDelta st.currentBills qid
          = billDelta b qid
            + billsDelta (st.currentBills.filter (fun x => x.id ≠ id)) qid := by
        intro qid
        rw [billsDelta_perm _ _ hperm qid, billsDelta_cons]
      have hdcnt : ∀ bid, countId st.currentBills bid
          = (if b.id = bid then 1 else 0)
            + countId (st.currentBills.filter (fun x => x.id ≠ id)) bid := by
        intro bid
        rw [countId_perm _ _ hperm bid, countId_cons]
      refine ⟨fun qid => ?_, ?_, fun bid => ?_⟩
      · simp only
        rw [getBal_removeBillBalances, ihA qid]
        rw [storageDelta_setStored, ← ihB, hdel qid]
        ring
      · simp only
        rw [getStored_setStored_same]
      · simp only
        have heq := storageCount_setStored st.billStorage st.currentYear
          (st.currentBills.filter (fun x => x.id ≠ id)) bid
        rw [← ihB] at heq
        have h1 := hdcnt bid
        have h2 := ihC bid
        by_cases hb : b.id = bid
        · rw [if_pos hb] at h1
          omega
        · rw [if_neg hb] at h1
          omega
  | updateBill st ub hr ih =>
    obtain ⟨ihA, ihB, ihC⟩ := ih
    cases hf : st.currentBills.find? (fun b => b.id = ub.id) with
    | none =>
      have hstate : updateBillOp st ub = st := by
        unfold updateBillOp
        rw [hf]
      rw [hstate]
      exact ⟨ihA, ihB, ihC⟩
    | some old =>
      obtain ⟨hbm, hbid⟩ := find?_bill_eq st.currentBills ub.id old hf
      have hstate : updateBillOp st ub
          = { balances := applyBillBalances
                (removeBillBalances st.balances old) ub,
              availableYears := st.availableYears,
              currentYear := st.currentYear,
              currentBills := st.currentBills.map
                (fun b => if b.id = ub.id then ub else b),
              billStorage := setStored st.billStorage st.currentYear
                (st.currentBills.map
                  (fun b => if b.id = ub.id then ub else b)),
              storedMeta := (applyBillBalances
                  (removeBillBalances st.balances old) ub,
                st.availableYears) } := by
        unfold updateBillOp
        rw [hf]
      rw [hstate]
      have hcnt : countId st.currentBills ub.id ≤ 1 := by
        rw [ihB]
        exact le_trans (countId_getStored_le st.billStorage st.currentYear ub.id)
          (ihC ub.id)
      have hpermOld : List.Perm st.currentBills
          (old :: st.currentBills.filter (fun x => x.id ≠ ub.id)) := by
        have := perm_remove st.currentBills old hbm (by rw [hbid]; exact hcnt)
        rw [hbid] at this
        exact this
      have hpermNew : List.Perm (st.currentBills.map
            (fun b => if b.id = ub.id then ub else b))
          (ub :: st.currentBills.filter (fun x => x.id ≠ ub.id)) :=
        perm_replace st.currentBills ub old hbm hbid hcnt
      refine ⟨fun qid => ?_, ?_, fun bid => ?_⟩
      · simp only
        rw [getBal_applyBillBalances, getBal_removeBillBalances, ihA qid]
        rw [storageDelta_setStored, ← ihB]
        rw [billsDelta_perm _ _ hpermNew qid, billsDelta_cons]
        rw [billsDelta_perm _ _ hpermOld qid, billsDelta_cons]
        ring
      · simp only
        rw [getStored_setStored_same]
      · simp only
        have heq := storageCount_setStored st.billStorage st.currentYear
          (st.currentBills.map (fun b => if b.id = ub.id then ub else b)) bid
        rw [← ihB] at heq
        have h1 : countId (st.currentBills.map
              (fun b => if b.id = ub.id then ub else b)) bid
            = (if ub.id = bid then 1 else 0)
              + countId (st.currentBills.filter (fun x => x.id ≠ ub.id)) bid := by
          rw [countId_perm _ _ hpermNew bid, countId_cons]
        have h2 : countId st.currentBills bid
            = (if old.id = bid then 1 else 0)
              + countId (st.currentBills.filter (fun x => x.id ≠ ub.id)) bid := by
          rw [countId_perm _ _ hpermOld bid, countId_cons]
        have h3 := ihC bid
        rw [hbid] at h2
        by_cases hb : ub.id = bid
        · rw [if_pos hb] at h1 h2
          omega
        · rw [if_neg hb] at h1 h2
          omega
  | loadYear st y hr ih =>
    obtain ⟨ihA, ihB, ihC⟩ := ih
    exact ⟨ihA, rfl, ihC⟩

/-- C8: at every reachable store state — after any sequence of `addBill`,
`updateBill`, `deleteBill` and `loadYear` operations from a fresh store —
the incrementally maintained `meta.balances` equal, pointwise, the balances
obtained by refolding the full stored bill list (all years) from zero with
the `addBill` rule; the refold depends on the bill list alone, never on the
prior incremental state. -/
theorem balances_eq_recompute_of_reachable (st : StoreState)
    (h : Reachable st) :
    ∀ id, getBal st.balances id = getBal (recomputeBalances (allBills st)) id := by
  intro id
  rw [getBal_recomputeBalances]
  rw [(reachable_invariant st h).1 id]
  unfold allBills
  exact storageDelta_eq_flatten st.billStorage id

/-- Witness for C8 after a concrete `addBill`, `loadYear`, `deleteBill`
sequence. -/
theorem balances_eq_recompute_of_reachable_witness :
    getBal (deleteBillOp (loadYearOp (addBillOp (initialState "2025")
          exampleBillA) "2025") "nope").balances "alice"
      = getBal (recomputeBalances (allBills (deleteBillOp (loadYearOp
          (addBillOp (initialState "2025") exampleBillA) "2025") "nope")))
        "alice" := by
  have hr : Reachable (deleteBillOp (loadYearOp (addBillOp
      (initialState "2025") exampleBillA) "2025") "nope") :=
    Reachable.deleteBill _ _ (Reachable.loadYear _ _
      (Reachable.addBill _ _ (Reachable.init "2025") (by decide)))
  exact balances_eq_recompute_of_reachable _ hr "alice"

/-- C10: calling `deleteBill` or `updateBill` with a bill id that occurs in
no current bill leaves the entire store state unchanged — balances, bill
list and persisted data included (the guard returns the previous state
before any save runs). -/
theorem unknown_id_ops_are_no_ops (st : StoreState) (did : String) (ub : Bill)
    (h1 : ∀ b ∈ st.currentBills, b.id ≠ did)
    (h2 : ∀ b ∈ st.currentBills, b.id ≠ ub.id) :
    deleteBillOp st did = st ∧ updateBillOp st ub = st := by
  have hf1 : st.currentBills.find? (fun b => b.id = did) = none := by
    rw [List.find?_eq_none]
    intro b hb
    simpa using h1 b hb
  have hf2 : st.currentBills.find? (fun b => b.id = ub.id) = none := by
    rw [List.find?_eq_none]
    intro b hb
    simpa using h2 b hb
  constructor
  · unfold deleteBillOp
    rw [hf1]
  · unfold updateBillOp
    rw [hf2]

/-- Witness for C10 on a concrete one-bill store. -/
theorem unknown_id_ops_are_no_ops_witness :
    deleteBillOp (addBillOp (initialState "2025") exampleBillA) "missing"
        = addBillOp (initialState "2025") exampleBillA
      ∧ updateBillOp (addBillOp (initialState "2025") exampleBillA)
          { exampleBillA with id := "missing2" }
        = addBillOp (initialState "2025") exampleBillA := by
  have hbills : (addBillOp (initialState "2025") exampleBillA).currentBills
      = [exampleBillA] := by
    have hy : getYear exampleBillA.date = (initialState "2025").currentYear := by
      decide
    unfold addBillOp
    rw [if_pos hy]
    rfl
  refine unknown_id_ops_are_no_ops _ "missing" _ ?_ ?_ <;>
    (rw [hbills]; intro b hb; simp only [List.mem_singleton] at hb; subst hb;
      decide)

/-! ## Load paths (loadFromStorage, loadYear and exportData in
DefaultService.ts)

`loadFromStorage` distinguishes four outcomes: no stored value (`null`), an
encrypted value with no available password (`'LOCKED'`), an encrypted value
whose decryption throws (`'ERROR'`), and decrypted or plain data.  `parse`
stands for the `JSON.parse` applied to a decrypted string; the results below
hold for every parser. -/

inductive StoredItem where
  | plain (bills : List Bill)
  | enc (pkg : CryptoService.EncryptedPackage)
deriving DecidableEq

inductive LoadResult where
  | absent
  | locked
  | err
  | data (bills : List Bill)
deriving DecidableEq

def loadFromStorage (parse : String → List Bill) (stored : Option StoredItem)
    (password : Option String) : LoadResult :=
  match stored with
  | none => LoadResult.absent
  | some (StoredItem.plain bills) => LoadResult.data bills
  | some (StoredItem.enc pkg) =>
    match password with
    | none => LoadResult.locked
    | some pw =>
      match CryptoService.decrypt pkg pw with
      | Except.ok s => LoadResult.data (parse s)
      | Except.error _ => LoadResult.err

/-- The bill list `loadYear` installs as `currentBills`:
`(bills && bills !== 'LOCKED' && bills !== 'ERROR') ? bills : []`. -/
def loadYearBills (parse : String → List Bill) (stored : Option StoredItem)
    (password : Option String) : List Bill :=
  match loadFromStorage parse stored password with
  | LoadResult.data bills => bills
  | _ => []

/-- The per-year entries `exportData` includes: a year is emitted only when
its load yields data; locked or failing years are silently omitted. -/
def exportDataBills (parse : String → List Bill)
    (storageOf : String → Option StoredItem) (password : Option String)
    (years : List String) : List (String × List Bill) :=
  years.filterMap (fun y =>
    match loadFromStorage parse (storageOf y) password with
    | LoadResult.data bills => some (y, bills)
    | _ => none)

/-- C2 (code bug): with a stored encrypted year whose decryption fails
(wrong password for a concrete genuine package), `loadFromStorage` does
surface the dedicated error outcome, distinct from absent — but `loadYear`
collapses it to an empty bill list and `exportData` silently omits the year,
so on these paths a decryption failure is presented exactly like absent
data. -/
theorem loadYear_swallows_decryption_error :
    (∀ parse : String → List Bill,
      loadFromStorage parse
          (some (StoredItem.enc (CryptoService.encrypt "[]" "alpha"
            [0, 1, 2, 3, 4, 5, 6, 7, 8, 9, 10, 11, 12, 13, 14, 15]
            [20, 21, 22, 23, 24, 25, 26, 27, 28, 29, 30, 31])))
          (some "beta") = LoadResult.err
      ∧ loadYearBills parse
          (some (StoredItem.enc (CryptoService.encrypt "[]" "alpha"
            [0, 1, 2, 3, 4, 5, 6, 7, 8, 9, 10, 11, 12, 13, 14, 15]
            [20, 21, 22, 23, 24, 25, 26, 27, 28, 29, 30, 31])))
          (some "beta") = []
      ∧ exportDataBills parse
          (fun _ => some (StoredItem.enc (CryptoService.encrypt "[]" "alpha"
            [0, 1, 2, 3, 4, 5, 6, 7, 8, 9, 10, 11, 12, 13, 14, 15]
            [20, 21, 22, 23, 24, 25, 26, 27, 28, 29, 30, 31])))
          (some "beta") ["2025"] = [])
    ∧ LoadResult.err ≠ LoadResult.absent := by
  have herr : CryptoService.decrypt (CryptoService.encrypt "[]" "alpha"
      [0, 1, 2, 3, 4, 5, 6, 7, 8, 9, 10, 11, 12, 13, 14, 15]
      [20, 21, 22, 23, 24, 25, 26, 27, 28, 29, 30, 31]) "beta"
      = Except.error CryptoService.decryptFailureMessage := by
    unfold CryptoService.encrypt
    simp only
    apply decrypt_error_of_aead_none "beta"
      [0, 1, 2, 3, 4, 5, 6, 7, 8, 9, 10, 11, 12, 13, 14, 15]
      [20, 21, 22, 23, 24, 25, 26, 27, 28, 29, 30, 31] _
      (by decide) (by decide)
      (aeadEncrypt_bytes_lt "alpha" _ _ _ (by decide) (by decide)
        (stringToBytes_lt "[]"))
    apply aeadDecrypt_none_of_check_fails
    intro hck
    have hforced := header_check_forces "alpha" "beta"
      [0, 1, 2, 3, 4, 5, 6, 7, 8, 9, 10, 11, 12, 13, 14, 15]
      [0, 1, 2, 3, 4, 5, 6, 7, 8, 9, 10, 11, 12, 13, 14, 15]
      [20, 21, 22, 23, 24, 25, 26, 27, 28, 29, 30, 31]
      [20, 21, 22, 23, 24, 25, 26, 27, 28, 29, 30, 31]
      (stringToBytes "[]") rfl rfl hck
    exact absurd hforced.1 (by decide)
  refine ⟨fun parse => ?_, by decide⟩
  have hload : loadFromStorage parse
      (some (StoredItem.enc (CryptoService.encrypt "[]" "alpha"
        [0, 1, 2, 3, 4, 5, 6, 7, 8, 9, 10, 11, 12, 13, 14, 15]
        [20, 21, 22, 23, 24, 25, 26, 27, 28, 29, 30, 31])))
      (some "beta") = LoadResult.err := by
    simp only [loadFromStorage]
    rw [herr]
  refine ⟨hload, ?_, ?_⟩
  · unfold loadYearBills
    rw [hload]
  · unfold exportDataBills
    simp only [List.filterMap]
    rw [hload]
